import Mathlib

/-!
Verification of the matching / import / playlist-synchronization core of the
Plex CSV playlist importer.  Python strings are modelled as `List Char`;
floating-point similarity scores are modelled as rationals; the external
`rapidfuzz` similarity functions are parameters of the scorer; exceptions are
modelled with `Except Unit`.
-/

namespace PlexImport

/-! ## Python string primitives -/

/-- Whitespace for Python `str.strip` and the regex class `\s`, restricted to
the ASCII range (all text reaching the regex layer has been transliterated
to ASCII first). -/
def pyIsSpace (c : Char) : Bool :=
  c.toNat == 32 || c.toNat == 9 || c.toNat == 10 || c.toNat == 13 ||
  c.toNat == 11 || c.toNat == 12

/-- Lowercase-or-digit characters, the class `[a-z0-9]` of `normalize_key`. -/
def isLowerAlnum (c : Char) : Bool :=
  (97 ≤ c.toNat && c.toNat ≤ 122) || (48 ≤ c.toNat && c.toNat ≤ 57)

/-- ASCII digits, the regex class `\d` (input is ASCII after `unidecode`). -/
def isDigitChar (c : Char) : Bool := 48 ≤ c.toNat && c.toNat ≤ 57

/-- Word characters for the regex boundary `\b` (ASCII fragment). -/
def isWordChar (c : Char) : Bool :=
  (65 ≤ c.toNat && c.toNat ≤ 90) || (97 ≤ c.toNat && c.toNat ≤ 122) ||
  (48 ≤ c.toNat && c.toNat ≤ 57) || c.toNat == 95

/-- Model of Python `str.lower`: ASCII letters are mapped down; a small table
of accented letters models the Unicode behaviour on the characters we model. -/
def toLowerPy (c : Char) : Char :=
  if 65 ≤ c.toNat && c.toNat ≤ 90 then Char.ofNat (c.toNat + 32)
  else if c = 'É' then 'é' else if c = 'Ü' then 'ü' else if c = 'Ñ' then 'ñ'
  else c

/-- Model of Python `str.upper` on the modelled characters. -/
def pyUpper (c : Char) : Char :=
  if 97 ≤ c.toNat && c.toNat ≤ 122 then Char.ofNat (c.toNat - 32)
  else if c = 'é' then 'É' else if c = 'ü' then 'Ü' else if c = 'ñ' then 'Ñ'
  else c

/-- Model of `unidecode` on one character: ASCII characters are kept, a small
table of accented letters is transliterated, anything else is dropped (the
real library drops characters it cannot transliterate). -/
def translit (c : Char) : List Char :=
  if c.toNat < 128 then [c]
  else if c = 'é' then ['e'] else if c = 'É' then ['E']
  else if c = 'ü' then ['u'] else if c = 'Ü' then ['U']
  else if c = 'ñ' then ['n'] else if c = 'Ñ' then ['N']
  else []

/-- Model of `unidecode` on a string. -/
def unidecodeStr (l : List Char) : List Char := l.flatMap translit

/-- Python `str.strip` from the left. -/
def stripF (l : List Char) : List Char := l.dropWhile pyIsSpace

/-- Python `str.strip` from the right. -/
def stripB (l : List Char) : List Char := ((l.reverse).dropWhile pyIsSpace).reverse

/-- Python `str.strip()`. -/
def pyStrip (l : List Char) : List Char := stripB (stripF l)

theorem dropWhile_length_le (p : Char → Bool) (l : List Char) :
    (l.dropWhile p).length ≤ l.length := by
  induction l with
  | nil => simp
  | cons c rest ih =>
    by_cases h : p c
    · simp only [List.dropWhile_cons_of_pos h]
      exact Nat.le_trans ih (Nat.le_succ _)
    · simp [List.dropWhile_cons_of_neg h]

/-- Fuelled worker for `replaceAll`; every step consumes at least one input
character, so fuel equal to the input length suffices (structural recursion
keeps the definition kernel-computable). -/
def replaceAllFuel (w r : List Char) : Nat → List Char → List Char
  | _, [] => []
  | 0, l => l
  | fuel + 1, c :: rest =>
    if w ≠ [] ∧ w.isPrefixOf (c :: rest) then
      r ++ replaceAllFuel w r fuel (rest.drop (w.length - 1))
    else
      c :: replaceAllFuel w r fuel rest

/-- Python `str.replace(w, r)`: replace non-overlapping occurrences of `w`
left to right (only called with a non-empty `w`, as in the source). -/
def replaceAll (w r : List Char) (l : List Char) : List Char :=
  replaceAllFuel w r l.length l

/-- Generic model of `re.sub(pattern, rep, s)`.  `matchAt c rest` decides
whether the pattern matches at the position where the remaining input is
`c :: rest` and, if so, returns the input following the match.  Every
pattern used in the source consumes at least one character, so fuel equal to
the input length suffices; out of fuel the remaining input is returned
unchanged. -/
def subScan (matchAt : Char → List Char → Option (List Char))
    (rep : List Char) : Nat → List Char → List Char
  | _, [] => []
  | 0, l => l
  | fuel + 1, c :: rest =>
    match matchAt c rest with
    | some rem => rep ++ subScan matchAt rep fuel rem
    | none => c :: subScan matchAt rep fuel rest

/-- Run a `re.sub` model over a whole string. -/
def pySub (matchAt : Char → List Char → Option (List Char))
    (rep : List Char) (l : List Char) : List Char :=
  subScan matchAt rep (l.length + 1) l

/-- Scan forward for a closing character, failing at a newline or the end of
input (regex `.` does not match a newline). -/
def findClose (close : Char) : List Char → Option (List Char)
  | [] => none
  | c :: rest => if c = close then some rest
      else if c = '\n' then none else findClose close rest

/-- Matcher for the removal pattern `\((feat\.|featuring).*?\)`. -/
def matchFeatParen (c : Char) (rest : List Char) : Option (List Char) :=
  if c = '(' then
    if ("feat.".data).isPrefixOf rest then findClose ')' (rest.drop 5)
    else if ("featuring".data).isPrefixOf rest then findClose ')' (rest.drop 9)
    else none
  else none

/-- Matcher for the removal pattern `-\s*remaster(ed)?\s*\d*`. -/
def matchRemaster (c : Char) (rest : List Char) : Option (List Char) :=
  if c = '-' then
    let r1 := rest.dropWhile pyIsSpace
    if ("remaster".data).isPrefixOf r1 then
      let r2 := r1.drop 8
      let r3 := if ("ed".data).isPrefixOf r2 then r2.drop 2 else r2
      some ((r3.dropWhile pyIsSpace).dropWhile isDigitChar)
    else none
  else none

/-- Matcher for the removal pattern `-\s*deluxe edition`. -/
def matchDeluxe (c : Char) (rest : List Char) : Option (List Char) :=
  if c = '-' then
    let r1 := rest.dropWhile pyIsSpace
    if ("deluxe edition".data).isPrefixOf r1 then some (r1.drop 14) else none
  else none

/-- Matcher for the removal pattern `-\s*live`. -/
def matchLive (c : Char) (rest : List Char) : Option (List Char) :=
  if c = '-' then
    let r1 := rest.dropWhile pyIsSpace
    if ("live".data).isPrefixOf r1 then some (r1.drop 4) else none
  else none

/-- Matcher for the removal pattern `\[.*?\]`. -/
def matchBracket (c : Char) (rest : List Char) : Option (List Char) :=
  if c = '[' then findClose ']' rest else none

/-- The `REMOVALS` regex substitutions of `matching.py`, applied in source
order, each replacing a match with a single space. -/
def applyRemovals (l : List Char) : List Char :=
  let l1 := pySub matchFeatParen [' '] l
  let l2 := pySub matchRemaster [' '] l1
  let l3 := pySub matchDeluxe [' '] l2
  let l4 := pySub matchLive [' '] l3
  pySub matchBracket [' '] l4

/-- The `STOP_WORDS` of `matching.py`.  The source stores them in a Python
`set`, whose iteration order is unspecified; the model fixes the order of the
source listing. -/
def stopWords : List (List Char) :=
  ["feat.".data, "featuring".data, "remastered".data, "remaster".data,
   "deluxe".data, "edition".data, "explicit".data]

/-- Remove every stop word, as substrings, replacing each by one space. -/
def applyStopWords (l : List Char) : List Char :=
  stopWords.foldl (fun s w => replaceAll w [' '] s) l

/-- Fuelled worker for `collapse`; every step consumes at least one input
character, so fuel equal to the input length suffices. -/
def collapseFuel : Nat → List Char → List Char
  | _, [] => []
  | 0, l => l
  | fuel + 1, c :: rest =>
    if isLowerAlnum c then c :: collapseFuel fuel rest
    else ' ' :: collapseFuel fuel (rest.dropWhile (fun d => !isLowerAlnum d))

/-- Model of `re.sub(r"[^a-z0-9]+", " ", s)`: collapse every maximal run of
characters outside `[a-z0-9]` into a single space. -/
def collapse (l : List Char) : List Char := collapseFuel l.length l

/-- The `normalize_key` function of `matching.py`: transliterate, lowercase,
apply the removal patterns, delete stop-word substrings, collapse non
alphanumeric runs to single spaces, and strip. -/
def normalize_key (text : List Char) : List Char :=
  let lowered := (unidecodeStr text).map toLowerPy
  let cleaned := applyStopWords (applyRemovals lowered)
  pyStrip (collapse cleaned)

/-! ## Title Variant Generator (`TrackMatcher._title_variants`) -/

/-- Matcher for `\s*\(.*?\)` (parenthetical stripping, replaced by the empty
string).  The greedy `\s*` must be a maximal space run followed by `(`. -/
def matchParenBlock (c : Char) (rest : List Char) : Option (List Char) :=
  if c = '(' then findClose ')' rest
  else if pyIsSpace c then
    match rest.dropWhile pyIsSpace with
    | '(' :: r2 => findClose ')' r2
    | _ => none
  else none

/-- Model of `re.split(r"\s+-\s+", s, maxsplit=1)[0]`: the portion of the
string before the first " - " separator (whitespace, dash, whitespace). -/
def dashSplitHead : List Char → List Char
  | [] => []
  | c :: rest =>
    if pyIsSpace c ∧
        (match rest.dropWhile pyIsSpace with
         | '-' :: d :: _ => pyIsSpace d
         | _ => false) = true then []
    else c :: dashSplitHead rest

/-- Matcher for `\s*(feat\.|featuring)\b.*` with `re.IGNORECASE` (replaced by
the empty string).  After `feat.` the boundary `\b` requires a following word
character; after `featuring` it requires a non-word character or the end. -/
def matchFeatAfter (c : Char) (rest : List Char) : Option (List Char) :=
  let s := c :: rest
  let afterWs := s.dropWhile pyIsSpace
  if (afterWs.take 5).map toLowerPy = "feat.".data then
    match afterWs.drop 5 with
    | w :: r2 =>
        if isWordChar w then some ((w :: r2).dropWhile (fun d => d ≠ '\n'))
        else none
    | [] => none
  else if (afterWs.take 9).map toLowerPy = "featuring".data then
    match afterWs.drop 9 with
    | [] => some []
    | w :: r2 =>
        if isWordChar w then none
        else some ((w :: r2).dropWhile (fun d => d ≠ '\n'))
  else none

/-- The `_add` closure of `_title_variants`: strip the value, discard it when
empty or (case-insensitively) already seen, otherwise append it.  The state is
the pair (variants so far, lowercased seen set in insertion order). -/
def addVariant (st : List (List Char) × List (List Char)) (value : List Char) :
    List (List Char) × List (List Char) :=
  let candidate := pyStrip value
  if candidate ≠ [] ∧ candidate.map toLowerPy ∉ st.2 then
    (st.1 ++ [candidate], st.2 ++ [candidate.map toLowerPy])
  else st

/-- The `_title_variants` method: raw title, parenthetical-stripped title,
the part before the first " - " of that, and the feat-removed form of that,
deduplicated case-insensitively with empty candidates discarded. -/
def title_variants (title : List Char) : List (List Char) :=
  let st0 := addVariant ([], []) title
  let strippedParens := pySub matchParenBlock [] title
  let st1 := addVariant st0 strippedParens
  let dashed := dashSplitHead strippedParens
  let st2 := addVariant st1 dashed
  let featRemoved := pySub matchFeatAfter [] dashed
  let st3 := addVariant st2 featRemoved
  st3.1

/-! ## Data model -/

/-- One parsed CSV row (`app.models.PlaylistEntry`). -/
structure PlaylistEntry where
  row : Nat
  track_name : List Char
  artist_name : List Char
  album_name : Option (List Char)
deriving DecidableEq, Repr

/-- The derived `combined_key` property: `f"{artist} - {track}".strip()`. -/
def combined_key (e : PlaylistEntry) : List Char :=
  pyStrip (e.artist_name ++ " - ".data ++ e.track_name)

instance {ε α : Type _} [DecidableEq ε] [DecidableEq α] : DecidableEq (Except ε α) := fun x y =>
  match x, y with
  | .ok a, .ok b =>
      if h : a = b then isTrue (by rw [h])
      else isFalse (by intro he; cases he; exact h rfl)
  | .error a, .error b =>
      if h : a = b then isTrue (by rw [h])
      else isFalse (by intro he; cases he; exact h rfl)
  | .ok _, .error _ => isFalse (by intro h; cases h)
  | .error _, .ok _ => isFalse (by intro h; cases h)

/-- A media part (`plexapi` part object); `file` may be absent or empty. -/
structure PartObj where
  file : Option (List Char)
deriving DecidableEq, Repr

/-- A media object; reading `parts` may raise, modelled by `Except`. -/
structure MediaObj where
  parts : Except Unit (List PartObj)
deriving DecidableEq, Repr

/-- A catalog track as the core reads it: `ratingKey` (identity),
display fields, the resolved `TYPE`/`type` attribute (`ctype`), and the
playability data `locations` / `media`, whose reads may raise. -/
structure Track where
  ratingKey : Option Nat
  title : List Char
  grandparentTitle : List Char
  artist : List Char
  parentTitle : List Char
  ctype : List Char
  locations : Except Unit (List (List Char))
  media : Except Unit (List MediaObj)
deriving DecidableEq, Repr

/-! ## Scorer (`TrackMatcher._score_candidate`) -/

/-- Round-half-to-even on rationals, modelling Python `round`. -/
def roundHalfEven (q : ℚ) : ℤ :=
  let f := ⌊q⌋
  let r := q - f
  if r < 1/2 then f else if 1/2 < r then f + 1
  else if f % 2 = 0 then f else f + 1

/-- Model of `float(round(x, 2))` on the rational score model. -/
def pyRound2 (q : ℚ) : ℚ := (roundHalfEven (q * 100) : ℚ) / 100

/-- The `_score_candidate` method.  The external `rapidfuzz` similarity
functions `fuzz.WRatio` and `fuzz.partial_ratio` are parameters `wr` and
`pr`; the 0.7/0.3 album blend and the 2-decimal rounding follow the source. -/
def score_candidate (wr pr : List Char → List Char → ℚ)
    (e : PlaylistEntry) (cand : Track) : ℚ :=
  let entry_key := normalize_key (combined_key e)
  let candidate_artist :=
    if cand.grandparentTitle ≠ [] then cand.grandparentTitle else cand.artist
  let candidate_key := normalize_key (candidate_artist ++ " - ".data ++ cand.title)
  let base := wr entry_key candidate_key
  let blended :=
    match e.album_name with
    | some a =>
        if a ≠ [] ∧ cand.parentTitle ≠ [] then
          base * (7 / 10) +
            pr (normalize_key a) (normalize_key cand.parentTitle) * (3 / 10)
        else base
    | none => base
  pyRound2 blended

/-! ## Query Builder and Candidate Retriever -/

/-- A structured search query; `none` models an absent dict key. -/
structure SearchQuery where
  title : Option (List Char)
  artist : Option (List Char)
  album : Option (List Char)
deriving DecidableEq, Repr

/-- The external catalog section: structured search and free-text fallback
search (with `libtype="track"`); either may raise. -/
structure MusicSection where
  searchTracks : SearchQuery → Except Unit (List Track)
  search : List Char → Except Unit (List Track)

/-- The `_build_queries` method: for each title variant, emit the queries
`{title, artist, album}`, `{title, artist}`, `{title, album}`, `{title}`,
guarded by Python truthiness of each field. -/
def build_queries (e : PlaylistEntry) : List SearchQuery :=
  let tvs := title_variants e.track_name
  let artist := pyStrip e.artist_name
  let album : Option (List Char) :=
    match e.album_name with
    | some a => if a = [] then none else some (pyStrip a)
    | none => none
  let albumTruthy : Bool :=
    match album with | some a => decide (a ≠ []) | none => false
  tvs.flatMap (fun t =>
    (if t ≠ [] ∧ artist ≠ [] ∧ albumTruthy = true then
        [⟨some t, some artist, album⟩] else []) ++
    (if t ≠ [] ∧ artist ≠ [] then [⟨some t, some artist, none⟩] else []) ++
    (if t ≠ [] ∧ albumTruthy = true then [⟨some t, none, album⟩] else []) ++
    (if t ≠ [] then [⟨some t, none, none⟩] else []))

/-- The candidate filter of `_search_candidates`: non-empty title, a present
`ratingKey`, and entity kind "track". -/
def filterTracksPy (items : List Track) : List Track :=
  items.filter (fun i =>
    decide (i.title ≠ [] ∧ i.ratingKey ≠ none ∧ i.ctype = "track".data))

/-- The `_search_candidates` method: drop falsy kwargs, structured search
(errors degrade to no results), filter; on no valid candidate fall back to a
free-text search over the space-joined non-empty artist/title/album. -/
def search_candidates (sec : MusicSection) (q : SearchQuery) : List Track :=
  let kwTitle := q.title.bind (fun v => if v = [] then none else some v)
  let kwArtist := q.artist.bind (fun v => if v = [] then none else some v)
  let kwAlbum := q.album.bind (fun v => if v = [] then none else some v)
  match kwTitle with
  | none => []
  | some title =>
    let results :=
      match sec.searchTracks ⟨kwTitle, kwArtist, kwAlbum⟩ with
      | .ok r => r
      | .error _ => []
    let filtered := filterTracksPy results
    if filtered ≠ [] then filtered
    else
      let parts := [q.artist, q.title, q.album].filterMap
        (fun o => o.bind (fun v => if v = [] then none else some v))
      let fq0 := List.intercalate [' '] parts
      let fq := if fq0 = [] then title else fq0
      let fres := match sec.search fq with | .ok r => r | .error _ => []
      filterTracksPy fres

/-! ## Matcher (`TrackMatcher.find_best_match`) -/

/-- The per-attempt best-match record. -/
structure MatchResult where
  track : Track
  score : ℚ
deriving DecidableEq, Repr

/-- The value returned by `find_best_match`. -/
structure MatchAttempt where
  result : Option MatchResult
  best_score : ℚ
  had_candidates : Bool
deriving DecidableEq, Repr

/-- The loop state of `find_best_match`. -/
structure ScanState where
  best : Option MatchResult
  seen_keys : List (Option Nat)
  had_candidates : Bool
  best_score_seen : ℚ
deriving DecidableEq, Repr

/-- The inner candidate loop of `find_best_match`.  The returned flag is true
when a score of exactly 100 triggered the early return. -/
def scanCandidates (wr pr : List Char → List Char → ℚ) (threshold : ℚ)
    (e : PlaylistEntry) : List Track → ScanState → ScanState × Bool
  | [], st => (st, false)
  | cand :: cs, st =>
    if cand.ratingKey ∈ st.seen_keys then scanCandidates wr pr threshold e cs st
    else
      let st1 := {st with seen_keys := cand.ratingKey :: st.seen_keys}
      let score := score_candidate wr pr e cand
      let st2 := {st1 with best_score_seen := max st1.best_score_seen score}
      if (decide (threshold ≤ score) &&
          (match st2.best with
           | none => true
           | some b => decide (b.score < score))) = true then
        let st3 := {st2 with best := some ⟨cand, score⟩}
        if score = 100 then (st3, true)
        else scanCandidates wr pr threshold e cs st3
      else scanCandidates wr pr threshold e cs st2

/-- The outer query loop of `find_best_match`: mark `had_candidates`, run the
candidate loop, and stop as soon as it reports the score-100 early return. -/
def scanQueries (wr pr : List Char → List Char → ℚ) (threshold : ℚ)
    (sec : MusicSection) (e : PlaylistEntry) :
    List SearchQuery → ScanState → ScanState
  | [], st => st
  | q :: qs, st =>
    let cands := search_candidates sec q
    let st1 := if cands = [] then st else {st with had_candidates := true}
    match scanCandidates wr pr threshold e cands st1 with
    | (st2, true) => st2
    | (st2, false) => scanQueries wr pr threshold sec e qs st2

/-- The `find_best_match` method. -/
def find_best_match (wr pr : List Char → List Char → ℚ) (sec : MusicSection)
    (threshold : ℚ) (e : PlaylistEntry) : MatchAttempt :=
  let st := scanQueries wr pr threshold sec e (build_queries e) ⟨none, [], false, 0⟩
  ⟨st.best, st.best_score_seen, st.had_candidates⟩

/-! ## Playability (`_has_playable_media`) -/

/-- Scan the parts of one media object for a truthy `file` attribute. -/
def partsHaveFile : List PartObj → Bool
  | [] => false
  | p :: ps =>
    (match p.file with | some f => decide (f ≠ []) | none => false) ||
      partsHaveFile ps

/-- Scan the media objects; `none` models an exception escaping from the
`media.parts` read, which aborts the whole scan. -/
def mediaScan : List MediaObj → Option Bool
  | [] => some false
  | m :: ms =>
    match m.parts with
    | .error _ => none
    | .ok ps => if partsHaveFile ps then some true else mediaScan ms

/-- The module-level `_has_playable_media` function: an error reading
`locations` degrades to an empty list; a non-empty location list is playable;
otherwise the media/parts scan decides, with any error yielding `False`. -/
def has_playable_media (t : Track) : Bool :=
  let locations := match t.locations with | .ok l => l | .error _ => []
  if locations ≠ [] then true
  else
    match t.media with
    | .error _ => false
    | .ok ms => (mediaScan ms).getD false

/-! ## Import Orchestrator (`PlaylistImporter.import_playlist` loop) -/

/-- An unmatched-row record (`app.models.UnmatchedTrack`). -/
structure UnmatchedTrack where
  row : Nat
  track_name : List Char
  artist_name : List Char
  reason : List Char
deriving DecidableEq, Repr

/-- The exact unplayable-candidate reason string of the source. -/
def unplayableReason : List Char :=
  "Matched Plex track has no playable media (check library paths).".data

/-- The reason string claimed by the specification (it omits "Plex"). -/
def specUnplayableReason : List Char :=
  "Matched track has no playable media (check library paths).".data

/-- The exact not-found reason string of the source. -/
def notFoundReason : List Char :=
  "Track not found in the selected library.".data

/-- Decimal digits of a natural number. -/
def natDigits (n : Nat) : List Char := Nat.toDigits 10 n

/-- Fixed-point rendering of a rational with `d` decimals, modelling the
Python format specifiers `:.1f` and `:.0f` on the rational score model. -/
def fmtFixed (d : Nat) (q : ℚ) : List Char :=
  let scaled := roundHalfEven (q * ((10 : ℚ) ^ d))
  let sign : List Char := if scaled < 0 then ['-'] else []
  let n := scaled.natAbs
  if d = 0 then sign ++ natDigits n
  else
    let ip := n / 10 ^ d
    let fp := n % 10 ^ d
    let ds := natDigits fp
    sign ++ natDigits ip ++ ['.'] ++ List.replicate (d - ds.length) '0' ++ ds

/-- The below-threshold reason template of the source. -/
def belowThresholdReason (best threshold : ℚ) : List Char :=
  "Best match score ".data ++ fmtFixed 1 best ++ " < threshold ".data ++
    fmtFixed 0 threshold ++ ".".data

/-- The mutable state of the import loop.  `progress_calls` records the
arguments of the progress-callback invocations that actually happen (the
callback's own failures are swallowed by the source's `try/except`, so the
rest of the state never depends on the callback's behaviour). -/
structure ImportState where
  matched_tracks : List Track
  unmatched : List UnmatchedTrack
  seen_rating_keys : List Nat
  matched_count : Nat
  progress_calls : List Nat
deriving DecidableEq, Repr

/-- The initial import-loop state. -/
def initImportState : ImportState := ⟨[], [], [], 0, []⟩

/-- One iteration of the `import_playlist` entry loop, at 1-based index
`ie.1` for entry `ie.2`.  The matcher is abstracted as `attemptOf` (the
source calls `matcher.find_best_match(entry)`).  The two `continue`
statements (unplayable, already-seen rating key) leave the loop body before
the progress-callback call, so those branches do not extend
`progress_calls`. -/
def stepEntry (threshold : ℚ) (attemptOf : PlaylistEntry → MatchAttempt)
    (st : ImportState) (ie : Nat × PlaylistEntry) : ImportState :=
  let e := ie.2
  let attempt := attemptOf e
  let noRes : ImportState :=
    {st with
      unmatched := st.unmatched ++
        [⟨e.row, e.track_name, e.artist_name,
          if attempt.had_candidates ∧ 0 < attempt.best_score then
            belowThresholdReason attempt.best_score threshold
          else notFoundReason⟩],
      progress_calls := st.progress_calls ++ [ie.1]}
  match attempt.result with
  | none => noRes
  | some m =>
    match m.track.ratingKey with
    | none => noRes
    | some rk =>
      if has_playable_media m.track = false then
        {st with unmatched := st.unmatched ++
          [⟨e.row, e.track_name, e.artist_name, unplayableReason⟩]}
      else
        let st1 := {st with matched_count := st.matched_count + 1}
        if rk ∈ st1.seen_rating_keys then st1
        else
          {st1 with
            seen_rating_keys := st1.seen_rating_keys ++ [rk],
            matched_tracks := st1.matched_tracks ++ [m.track],
            progress_calls := st1.progress_calls ++ [ie.1]}

/-- The whole entry loop of `import_playlist` (`enumerate(entries, start=1)`). -/
def processEntries (threshold : ℚ) (attemptOf : PlaylistEntry → MatchAttempt)
    (entries : List PlaylistEntry) : ImportState :=
  (entries.enumFrom 1).foldl (stepEntry threshold attemptOf) initImportState

/-! ## Playlist Synchronizer (`_apply_playlist_changes`) -/

/-- An existing playlist as the core reads it: its current items. -/
structure PlexPlaylist where
  items : List Track
deriving DecidableEq, Repr

/-- The catalog mutation performed by `_apply_playlist_changes`. -/
inductive PlaylistEffect
  | noChange
  | created (tracks : List Track)
  | replaced (removed : List Track) (added : List Track)
  | appended (added : List Track)
deriving DecidableEq, Repr

/-- The tracks written to the playlist by an effect. -/
def addedOf : PlaylistEffect → List Track
  | .noChange => []
  | .created t => t
  | .replaced _ a => a
  | .appended a => a

/-- Return value of `_apply_playlist_changes`: the returned count plus the
catalog mutation it performed. -/
structure ApplyOutcome where
  added_count : Nat
  effect : PlaylistEffect
deriving DecidableEq, Repr

/-- The `_apply_playlist_changes` method.  `existing` is the result of the
playlist lookup by name (`none` models plexapi `NotFound`). -/
def apply_playlist_changes (existing : Option PlexPlaylist)
    (tracks : List Track) (replace_existing : Bool) : ApplyOutcome :=
  if tracks = [] then ⟨0, .noChange⟩
  else
    match existing with
    | none => ⟨tracks.length, .created tracks⟩
    | some playlist =>
      if replace_existing then ⟨tracks.length, .replaced playlist.items tracks⟩
      else
        let existing_rating_keys := playlist.items.map (fun i => i.ratingKey)
        let new_tracks :=
          tracks.filter (fun t => decide (t.ratingKey ∉ existing_rating_keys))
        if new_tracks = [] then ⟨0, .noChange⟩
        else ⟨new_tracks.length, .appended new_tracks⟩

/-- The fields of `app.models.ImportResult`. -/
structure ImportResultR where
  matched_count : Nat
  added_count : Nat
  unmatched : List UnmatchedTrack
deriving DecidableEq, Repr

/-- The result assembly of `import_playlist`: run the entry loop, apply the
playlist changes, and package the counts. -/
def import_playlist_result (threshold : ℚ)
    (attemptOf : PlaylistEntry → MatchAttempt) (entries : List PlaylistEntry)
    (existing : Option PlexPlaylist) (replace_existing : Bool) : ImportResultR :=
  let st := processEntries threshold attemptOf entries
  let outcome := apply_playlist_changes existing st.matched_tracks replace_existing
  ⟨st.matched_count, outcome.added_count, st.unmatched⟩

/-! ## Job Progress Tracker (`app.services.progress.JobProgress`) -/

/-- One job's progress record (the dict
`{"processed": int, "total": int, "status": str}`). -/
structure JobState where
  processed : Int
  total : Int
  status : List Char
deriving DecidableEq, Repr

/-- The tracker's map, keyed by job id.  A Python dict has unique keys and
preserves insertion order; operations below preserve that invariant. -/
abbrev JobMap := List (List Char × JobState)

/-- Dict lookup by job id. -/
def jobLookup : JobMap → List Char → Option JobState
  | [], _ => none
  | (k, v) :: rest, id => if k = id then some v else jobLookup rest id

/-- The `start` operation: `self._jobs[job_id] = {...}` (overwrite or insert). -/
def jobStart (m : JobMap) (id : List Char) (total : Int) : JobMap :=
  if (jobLookup m id).isSome then
    m.map (fun p => if p.1 = id then (p.1, ⟨0, total, "running".data⟩) else p)
  else m ++ [(id, ⟨0, total, "running".data⟩)]

/-- In-place update of the entry for `id`, a no-op when `id` is absent —
the common shape of `set_total`, `update`, `finish` and `error`. -/
def jobUpdateWith (f : JobState → JobState) (m : JobMap) (id : List Char) :
    JobMap :=
  m.map (fun p => if p.1 = id then (p.1, f p.2) else p)

/-- The `set_total` operation. -/
def jobSetTotal (m : JobMap) (id : List Char) (total : Int) : JobMap :=
  jobUpdateWith (fun s => {s with total := total}) m id

/-- The `update` operation. -/
def jobUpdate (m : JobMap) (id : List Char) (processed : Int) : JobMap :=
  jobUpdateWith (fun s => {s with processed := processed}) m id

/-- The `finish` operation. -/
def jobFinish (m : JobMap) (id : List Char) : JobMap :=
  jobUpdateWith (fun s => {s with status := "completed".data}) m id

/-- The `error` operation. -/
def jobError (m : JobMap) (id : List Char) : JobMap :=
  jobUpdateWith (fun s => {s with status := "error".data}) m id

/-- The `snapshot` operation: `dict(job)` returns a copy, which in the pure
model is the value itself; an absent id yields `none` ("not found"). -/
def jobSnapshot (m : JobMap) (id : List Char) : Option JobState :=
  jobLookup m id

/-- The `pop` operation: return the entry (or `none`) and the map without it. -/
def jobPop (m : JobMap) (id : List Char) : Option JobState × JobMap :=
  (jobLookup m id, m.filter (fun p => decide (p.1 ≠ id)))

/-! ## Concrete similarity functions for witnesses

`rapidfuzz.fuzz.WRatio` and `fuzz.partial_ratio` return 100 on two equal
non-empty strings and 0 on two strings sharing no characters; `simExact`
agrees with them on exactly the concrete inputs used in the witnesses and
counterexamples below. -/

/-- Witness similarity oracle (see section comment). -/
def simExact (a b : List Char) : ℚ := if a = b then 100 else 0

/-! ## Concrete fixtures used by witnesses and counterexamples -/

/-- A playable track with rating key `k`. -/
def fixTrack (k : Nat) : Track :=
  ⟨some k, "t".data, "a".data, [], [], "track".data,
    Except.ok ["f".data], Except.ok []⟩

/-- A track with no locations and no media: not playable. -/
def fixNoPlay : Track :=
  ⟨some 12, "t".data, "a".data, [], [], "track".data, Except.ok [], Except.ok []⟩

/-- A track whose `locations` read raises but whose media has a file. -/
def fixLocErr : Track :=
  ⟨some 13, "t".data, [], [], [], "track".data, Except.error (),
    Except.ok [⟨Except.ok [⟨some "f".data⟩]⟩]⟩

/-- A simple entry with row number `r`. -/
def fixEntry (r : Nat) : PlaylistEntry := ⟨r, "t".data, "a".data, none⟩

/-- A match attempt that succeeded on `t` with score `s`. -/
def attOf (t : Track) (s : ℚ) : MatchAttempt := ⟨some ⟨t, s⟩, s, true⟩

/-- A match attempt that found candidates but none above threshold. -/
def attMiss : MatchAttempt := ⟨none, 55, true⟩

/-- The end-to-end entry of the specification scenario. -/
def yEntry : PlaylistEntry := ⟨1, "Yesterday".data, "The Beatles".data, none⟩

/-- An exactly matching playable candidate for `yEntry`. -/
def yTrack : Track :=
  ⟨some 11, "Yesterday".data, "The Beatles".data, [], [], "track".data,
    Except.ok ["f".data], Except.ok []⟩

/-- A catalog section returning `yTrack` for every structured query. -/
def ySection : MusicSection := ⟨fun _ => .ok [yTrack], fun _ => .ok []⟩

/-- An entry with an empty artist: it builds exactly one query. -/
def xEntry : PlaylistEntry := ⟨1, "x".data, [], none⟩

/-- An exactly matching candidate for `xEntry`. -/
def xTrack : Track :=
  ⟨some 21, "x".data, [], [], [], "track".data, Except.ok [], Except.ok []⟩

/-- A catalog section returning `xTrack` for every structured query. -/
def xSection : MusicSection := ⟨fun _ => .ok [xTrack], fun _ => .ok []⟩

/-- An entry carrying an album name (triggers the album blend). -/
def albEntry : PlaylistEntry :=
  ⟨1, "Yesterday".data, "The Beatles".data, some "Help!".data⟩

/-- A candidate with an equal combined key but an unrelated album. -/
def albTrack : Track :=
  ⟨some 31, "Yesterday".data, "The Beatles".data, [], "ZZZ".data, "track".data,
    Except.ok [], Except.ok []⟩

/-! ## Normal form of normalized keys (proof machinery for idempotence) -/

/-- The maximal `[a-z0-9]` runs of a string, in order (proof device: the
normalized key is these words joined by single spaces). -/
def wordsOf : List Char → List (List Char)
  | [] => []
  | c :: rest =>
    if isLowerAlnum c then
      (c :: rest.takeWhile isLowerAlnum) :: wordsOf (rest.dropWhile isLowerAlnum)
    else wordsOf rest
termination_by l => l.length
decreasing_by
  · simp only [List.length_cons]
    have := dropWhile_length_le isLowerAlnum rest
    omega
  · simp [Nat.lt_succ_self]

/-- Words joined by single spaces, each preceded by one space. -/
def joinTail : List (List Char) → List Char
  | [] => []
  | w :: ws => ' ' :: (w ++ joinTail ws)

/-- Words joined by single spaces. -/
def joinSpace : List (List Char) → List Char
  | [] => []
  | w :: ws => w ++ joinTail ws

/-- The rating keys of the playable matched candidates of a run, in entry
order (used to state when the dedup/unplayable `continue` paths are not
taken). -/
def playableKeysOf (attemptOf : PlaylistEntry → MatchAttempt)
    (l : List PlaylistEntry) : List Nat :=
  l.filterMap (fun e =>
    match (attemptOf e).result with
    | none => none
    | some m =>
      if has_playable_media m.track then m.track.ratingKey else none)

/-! # Theorems -/

/-! ## Fuel irrelevance and unfolding equations for the fuelled workers -/

theorem replaceAllFuel_irrel (w r : List Char) :
    ∀ (fuel fuel' : Nat) (l : List Char), l.length ≤ fuel → l.length ≤ fuel' →
      replaceAllFuel w r fuel l = replaceAllFuel w r fuel' l := by
  intro fuel
  induction fuel with
  | zero =>
    intro fuel' l hl _
    have hnil : l = [] := List.eq_nil_of_length_eq_zero (Nat.le_zero.1 hl)
    subst hnil
    cases fuel' <;> rfl
  | succ f ih =>
    intro fuel' l hl hl'
    cases l with
    | nil => cases fuel' <;> rfl
    | cons c rest =>
      cases fuel' with
      | zero => exact absurd hl' (by simp)
      | succ f' =>
        simp only [replaceAllFuel]
        by_cases hcond : w ≠ [] ∧ w.isPrefixOf (c :: rest)
        · rw [if_pos hcond, if_pos hcond]
          congr 1
          apply ih
          · have := List.length_drop (w.length - 1) rest
            simp only [List.length_cons] at hl
            omega
          · have := List.length_drop (w.length - 1) rest
            simp only [List.length_cons] at hl'
            omega
        · rw [if_neg hcond, if_neg hcond]
          congr 1
          apply ih
          · simp only [List.length_cons] at hl
            omega
          · simp only [List.length_cons] at hl'
            omega

theorem replaceAll_nil (w r : List Char) : replaceAll w r [] = [] := rfl

theorem replaceAll_cons (w r : List Char) (c : Char) (rest : List Char) :
    replaceAll w r (c :: rest) =
      if w ≠ [] ∧ w.isPrefixOf (c :: rest) then
        r ++ replaceAll w r (rest.drop (w.length - 1))
      else c :: replaceAll w r rest := by
  show replaceAllFuel w r (rest.length + 1) (c :: rest) = _
  simp only [replaceAllFuel]
  by_cases hcond : w ≠ [] ∧ w.isPrefixOf (c :: rest)
  · rw [if_pos hcond, if_pos hcond]
    congr 1
    apply replaceAllFuel_irrel
    all_goals
      have := List.length_drop (w.length - 1) rest
      omega
  · rw [if_neg hcond, if_neg hcond]
    rfl

theorem collapseFuel_irrel :
    ∀ (fuel fuel' : Nat) (l : List Char), l.length ≤ fuel → l.length ≤ fuel' →
      collapseFuel fuel l = collapseFuel fuel' l := by
  intro fuel
  induction fuel with
  | zero =>
    intro fuel' l hl _
    have hnil : l = [] := List.eq_nil_of_length_eq_zero (Nat.le_zero.1 hl)
    subst hnil
    cases fuel' <;> rfl
  | succ f ih =>
    intro fuel' l hl hl'
    cases l with
    | nil => cases fuel' <;> rfl
    | cons c rest =>
      cases fuel' with
      | zero => exact absurd hl' (by simp)
      | succ f' =>
        simp only [collapseFuel]
        by_cases hc : isLowerAlnum c
        · rw [if_pos hc, if_pos hc]
          congr 1
          apply ih
          · simp only [List.length_cons] at hl
            omega
          · simp only [List.length_cons] at hl'
            omega
        · rw [if_neg hc, if_neg hc]
          congr 1
          apply ih
          · have := dropWhile_length_le (fun d => !isLowerAlnum d) rest
            simp only [List.length_cons] at hl
            omega
          · have := dropWhile_length_le (fun d => !isLowerAlnum d) rest
            simp only [List.length_cons] at hl'
            omega

theorem collapse_nil : collapse [] = [] := rfl

theorem collapse_cons (c : Char) (rest : List Char) :
    collapse (c :: rest) =
      if isLowerAlnum c then c :: collapse rest
      else ' ' :: collapse (rest.dropWhile (fun d => !isLowerAlnum d)) := by
  show collapseFuel (rest.length + 1) (c :: rest) = _
  simp only [collapseFuel]
  by_cases hc : isLowerAlnum c
  · rw [if_pos hc, if_pos hc]
    rfl
  · rw [if_neg hc, if_neg hc]
    congr 1
    apply collapseFuel_irrel
    all_goals
      have := dropWhile_length_le (fun d => !isLowerAlnum d) rest
      omega

/-! ## C3: unplayable matched candidate -/

/-- C3 (counterexample): with an unplayable matched candidate the recorded
reason is the source's string "Matched Plex track has no playable media
(check library paths)." and not the claim's string, which omits "Plex". -/
theorem c3_unplayable_reason_cex :
    (stepEntry 70 (fun _ => attOf fixNoPlay 95) initImportState
        (1, fixEntry 5)).unmatched.map (fun u => u.reason) = [unplayableReason] ∧
      unplayableReason ≠ specUnplayableReason := by
  constructor
  · rfl
  · decide

/-- C3 (amended): for every entry whose match result exists (with a rating
key) but whose candidate is not playable, the loop body only appends an
`UnmatchedTrack` with the exact reason string "Matched Plex track has no
playable media (check library paths)." — `matched_count`, the matched-track
list, the seen-key set and the progress calls are unchanged. -/
theorem c3_unplayable_entry_step (threshold : ℚ)
    (attemptOf : PlaylistEntry → MatchAttempt) (st : ImportState)
    (idx : Nat) (e : PlaylistEntry) (m : MatchResult) (rk : Nat)
    (hres : (attemptOf e).result = some m)
    (hrk : m.track.ratingKey = some rk)
    (hplay : has_playable_media m.track = false) :
    stepEntry threshold attemptOf st (idx, e) =
      {st with unmatched := st.unmatched ++
        [⟨e.row, e.track_name, e.artist_name, unplayableReason⟩]} := by
  simp only [stepEntry, hres, hrk]
  simp [hplay]

/-- C3 (witness): the amended theorem applied to a concrete unplayable
candidate. -/
theorem c3_unplayable_entry_witness :
    stepEntry 70 (fun _ => attOf fixNoPlay 95) initImportState (1, fixEntry 5) =
      {initImportState with
        unmatched := [⟨5, "t".data, "a".data, unplayableReason⟩]} := by
  have h := c3_unplayable_entry_step 70 (fun _ => attOf fixNoPlay 95)
    initImportState 1 (fixEntry 5) ⟨fixNoPlay, 95⟩ 12 rfl rfl (by decide)
  simpa using h

/-! ## C9: per-entry tally invariant -/

theorem stepEntry_tally (threshold : ℚ)
    (attemptOf : PlaylistEntry → MatchAttempt) (st : ImportState)
    (ie : Nat × PlaylistEntry) :
    (stepEntry threshold attemptOf st ie).matched_count +
        (stepEntry threshold attemptOf st ie).unmatched.length =
      st.matched_count + st.unmatched.length + 1 := by
  simp only [stepEntry]
  cases hres : (attemptOf ie.2).result with
  | none => simp; omega
  | some m =>
    cases hrk : m.track.ratingKey with
    | none => simp [hrk]; omega
    | some rk =>
      simp only [hrk]
      by_cases hp : has_playable_media m.track = false
      · simp [hp]; omega
      · by_cases hseen : rk ∈ st.seen_rating_keys
        · simp [hp, hseen]; omega
        · simp [hp, hseen]; omega

theorem foldl_stepEntry_tally (threshold : ℚ)
    (attemptOf : PlaylistEntry → MatchAttempt) :
    ∀ (l : List PlaylistEntry) (i : Nat) (st : ImportState),
      ((l.enumFrom i).foldl (stepEntry threshold attemptOf) st).matched_count +
          ((l.enumFrom i).foldl (stepEntry threshold attemptOf) st).unmatched.length =
        st.matched_count + st.unmatched.length + l.length := by
  intro l
  induction l with
  | nil => intro i st; simp [List.enumFrom]
  | cons e rest ih =>
    intro i st
    simp only [List.enumFrom, List.foldl, List.length_cons]
    rw [ih]
    rw [stepEntry_tally]
    omega

/-- C9: every processed entry lands in exactly one tally, so after the loop
`matched_count + len(unmatched)` equals the number of entries processed. -/
theorem processEntries_tally (threshold : ℚ)
    (attemptOf : PlaylistEntry → MatchAttempt) (entries : List PlaylistEntry) :
    (processEntries threshold attemptOf entries).matched_count +
        (processEntries threshold attemptOf entries).unmatched.length =
      entries.length := by
  unfold processEntries
  rw [foldl_stepEntry_tally]
  simp [initImportState]

/-! ## C10: playability check under read errors -/

/-- C10 (counterexample): a track whose `locations` read raises but whose
media scan finds a file is reported playable — the claim's "any error is
treated as unplayable (returns false)" fails. -/
theorem c10_playability_cex :
    has_playable_media fixLocErr = true ∧
      fixLocErr.locations = Except.error () := by
  exact ⟨rfl, rfl⟩

/-- C10 (amended): the playability check never propagates an error.  An error
reading `locations` degrades to an empty location list, so the media scan
still decides; if the media read itself raises, or the media/parts scan
raises midway, the track is reported unplayable (`false`). -/
theorem c10_playability_error_handling :
    ∀ t : Track, t.locations = Except.error () →
      ((t.media = Except.error () → has_playable_media t = false) ∧
       (∀ ms, t.media = Except.ok ms → mediaScan ms = none →
          has_playable_media t = false)) := by
  intro t hloc
  constructor
  · intro hmed
    simp [has_playable_media, hloc, hmed]
  · intro ms hmed hscan
    simp [has_playable_media, hloc, hmed, hscan]

/-- C10 (witness): the amended theorem applied to a track whose reads all
raise. -/
theorem c10_playability_witness :
    has_playable_media
        ⟨some 1, [], [], [], [], [], Except.error (), Except.error ()⟩ = false :=
  (c10_playability_error_handling _ rfl).1 rfl

/-! ## C5: append-mode synchronization -/

/-- C5: with a present playlist and `replace=false`, the synchronizer adds
exactly the tracks whose identities are not among the existing items'
identities, and returns their number; when the matched identities are
pairwise distinct (as produced by the orchestrator's dedup) this count is the
cardinality of the set difference of identity sets. -/
theorem c5_append_diff (pl : PlexPlaylist) (tracks : List Track)
    (hne : tracks ≠ []) :
    addedOf (apply_playlist_changes (some pl) tracks false).effect =
        tracks.filter
          (fun t => decide (t.ratingKey ∉ pl.items.map (fun i => i.ratingKey))) ∧
    (apply_playlist_changes (some pl) tracks false).added_count =
        (tracks.filter
          (fun t => decide (t.ratingKey ∉ pl.items.map (fun i => i.ratingKey)))).length ∧
    ((tracks.map (fun t => t.ratingKey)).Nodup →
      (apply_playlist_changes (some pl) tracks false).added_count =
        ((tracks.map (fun t => t.ratingKey)).toFinset \
          (pl.items.map (fun i => i.ratingKey)).toFinset).card) := by
  have hred : apply_playlist_changes (some pl) tracks false =
      (if h : tracks.filter
          (fun t => decide (t.ratingKey ∉ pl.items.map (fun i => i.ratingKey))) = []
       then ⟨0, .noChange⟩
       else ⟨(tracks.filter
          (fun t => decide (t.ratingKey ∉ pl.items.map (fun i => i.ratingKey)))).length,
         .appended (tracks.filter
          (fun t => decide (t.ratingKey ∉ pl.items.map (fun i => i.ratingKey))))⟩) := by
    unfold apply_playlist_changes
    rw [if_neg hne]
    by_cases hnt : tracks.filter
        (fun t => decide (t.ratingKey ∉ pl.items.map (fun i => i.ratingKey))) = []
    · simp [hnt]
    · simp [hnt]
  rw [hred]
  by_cases hnt : tracks.filter
      (fun t => decide (t.ratingKey ∉ pl.items.map (fun i => i.ratingKey))) = []
  · rw [dif_pos hnt]
    refine ⟨by rw [hnt]; rfl, by rw [hnt]; rfl, fun hnd => ?_⟩
    have hsub : (tracks.map (fun t => t.ratingKey)).toFinset ⊆
        (pl.items.map (fun i => i.ratingKey)).toFinset := by
      intro k hk
      rcases List.mem_map.1 (List.mem_toFinset.1 hk) with ⟨t, ht, rfl⟩
      have hall := List.filter_eq_nil_iff.1 hnt t ht
      simp only [decide_eq_true_eq, not_not] at hall
      exact List.mem_toFinset.2 hall
    rw [Finset.sdiff_eq_empty_iff_subset.2 hsub]
    simp
  · rw [dif_neg hnt]
    have hmapped : (tracks.filter
          (fun t => decide (t.ratingKey ∉ pl.items.map (fun i => i.ratingKey)))).map
            (fun t => t.ratingKey) =
        (tracks.map (fun t => t.ratingKey)).filter
          (fun k => decide (k ∉ pl.items.map (fun i => i.ratingKey))) := by
      rw [List.filter_map]
      rfl
    refine ⟨by simp [addedOf], by simp, fun hnd => ?_⟩
    have h1 : ((tracks.map (fun t => t.ratingKey)).toFinset \
          (pl.items.map (fun i => i.ratingKey)).toFinset) =
        ((tracks.map (fun t => t.ratingKey)).filter
          (fun k => decide (k ∉ pl.items.map (fun i => i.ratingKey)))).toFinset := by
      rw [List.toFinset_filter, Finset.sdiff_eq_filter]
      apply Finset.filter_congr
      intro k _
      simp
    rw [h1, List.card_toFinset,
      List.Nodup.dedup (List.Nodup.filter _ hnd), ← hmapped, List.length_map]

/-- C5 (witness): five matched tracks, two already present, `added_count = 3`
and exactly the three new identities are appended. -/
theorem c5_append_diff_witness :
    (apply_playlist_changes
        (some ⟨[fixTrack 1, fixTrack 2, fixTrack 9]⟩)
        [fixTrack 1, fixTrack 2, fixTrack 3, fixTrack 4, fixTrack 5]
        false).added_count = 3 := by
  have h := (c5_append_diff ⟨[fixTrack 1, fixTrack 2, fixTrack 9]⟩
    [fixTrack 1, fixTrack 2, fixTrack 3, fixTrack 4, fixTrack 5]
    (by decide)).2.1
  rw [h]
  decide

/-! ## C8: job progress tracker operations -/

theorem jobLookup_none_iff (m : JobMap) (id : List Char) :
    jobLookup m id = none ↔ ∀ p ∈ m, p.1 ≠ id := by
  induction m with
  | nil => simp [jobLookup]
  | cons q rest ih =>
    simp only [jobLookup, List.mem_cons]
    by_cases hq : q.1 = id
    · rw [if_pos hq]
      constructor
      · intro h
        exact absurd h (by simp)
      · intro h
        exact absurd hq (h q (Or.inl rfl))
    · rw [if_neg hq, ih]
      constructor
      · rintro h p (rfl | hp)
        · exact hq
        · exact h p hp
      · intro h p hp
        exact h p (Or.inr hp)

theorem jobUpdateWith_absent (f : JobState → JobState) (m : JobMap)
    (id : List Char) (h : jobLookup m id = none) :
    jobUpdateWith f m id = m := by
  have hall := (jobLookup_none_iff m id).1 h
  clear h
  unfold jobUpdateWith
  revert hall
  induction m with
  | nil => intro _; rfl
  | cons q rest ih =>
    intro hall
    have hq : q.1 ≠ id := hall q (by simp)
    simp only [List.map_cons, if_neg hq]
    rw [ih (fun p hp => hall p (List.mem_cons_of_mem q hp))]

theorem jobLookup_filter_ne (m : JobMap) (id : List Char) :
    jobLookup (m.filter (fun p => decide (p.1 ≠ id))) id = none := by
  induction m with
  | nil => rfl
  | cons q rest ih =>
    by_cases hq : q.1 = id
    · simpa [List.filter_cons, hq] using ih
    · have hd : (decide (q.1 ≠ id)) = true := by simp [hq]
      simp only [List.filter_cons, hd, if_pos]
      simpa [jobLookup, if_neg hq] using ih

/-- C8: when the job id is absent, `set_total`, `update`, `finish` and
`error` leave the map unchanged and `snapshot` answers "not found"; when it
is present, `snapshot` returns the stored state (a copy — the pure model has
value semantics) and `pop` returns the entry and removes it. -/
theorem c8_job_tracker_contract (m : JobMap) (id : List Char) :
    (jobLookup m id = none →
      (∀ t, jobSetTotal m id t = m) ∧ (∀ p, jobUpdate m id p = m) ∧
      jobFinish m id = m ∧ jobError m id = m ∧ jobSnapshot m id = none) ∧
    (∀ s, jobLookup m id = some s →
      jobSnapshot m id = some s ∧ (jobPop m id).1 = some s ∧
      jobLookup (jobPop m id).2 id = none) := by
  constructor
  · intro habs
    exact ⟨fun t => jobUpdateWith_absent _ m id habs,
      fun p => jobUpdateWith_absent _ m id habs,
      jobUpdateWith_absent _ m id habs,
      jobUpdateWith_absent _ m id habs,
      habs⟩
  · intro s hs
    exact ⟨hs, hs, jobLookup_filter_ne m id⟩

/-- C8 (witness): the contract applied to a concrete one-job map, for an
absent and for a present id. -/
theorem c8_job_tracker_witness :
    jobSetTotal [("a".data, ⟨0, 7, "running".data⟩)] "b".data 9 =
        [("a".data, ⟨0, 7, "running".data⟩)] ∧
    (jobPop [("a".data, ⟨0, 7, "running".data⟩)] "a".data).1 =
        some ⟨0, 7, "running".data⟩ := by
  constructor
  · exact ((c8_job_tracker_contract
      [("a".data, ⟨0, 7, "running".data⟩)] "b".data).1 (by decide)).1 9
  · exact ((c8_job_tracker_contract
      [("a".data, ⟨0, 7, "running".data⟩)] "a".data).2 _ (by decide)).2.1

/-! ## C4: global dedup versus matched_count -/

theorem foldl_stepEntry_key_seen (threshold : ℚ)
    (attemptOf : PlaylistEntry → MatchAttempt) (k : Nat) :
    ∀ (l : List PlaylistEntry) (i : Nat) (st : ImportState),
      (∀ e ∈ l, ∃ m, (attemptOf e).result = some m ∧
        m.track.ratingKey = some k ∧ has_playable_media m.track = true) →
      k ∈ st.seen_rating_keys →
      ((l.enumFrom i).foldl (stepEntry threshold attemptOf) st).matched_tracks =
          st.matched_tracks ∧
      ((l.enumFrom i).foldl (stepEntry threshold attemptOf) st).matched_count =
          st.matched_count + l.length ∧
      ((l.enumFrom i).foldl (stepEntry threshold attemptOf) st).seen_rating_keys =
          st.seen_rating_keys := by
  intro l
  induction l with
  | nil => intro i st _ _; simp [List.enumFrom]
  | cons e rest ih =>
    intro i st hall hk
    obtain ⟨m, hres, hrk, hplay⟩ := hall e (by simp)
    have hstep : stepEntry threshold attemptOf st (i, e) =
        {st with matched_count := st.matched_count + 1} := by
      simp only [stepEntry, hres, hrk]
      simp [hplay, hk]
    rw [List.enumFrom_cons]
    simp only [List.foldl_cons]
    rw [hstep]
    have h := ih (i + 1) {st with matched_count := st.matched_count + 1}
      (fun e' he' => hall e' (List.mem_cons_of_mem e he')) (by simpa using hk)
    refine ⟨h.1, ?_, h.2.2⟩
    rw [h.2.1]
    simp [List.length_cons]
    omega

/-- C4: when every entry of a non-empty list resolves to a playable
candidate with one and the same rating key, the matched-track list has
exactly one element while `matched_count` counts all entries (all of them
passed the threshold). -/
theorem c4_dedup_single_track (threshold : ℚ)
    (attemptOf : PlaylistEntry → MatchAttempt) (entries : List PlaylistEntry)
    (k : Nat) (hne : entries ≠ [])
    (hall : ∀ e ∈ entries, ∃ m, (attemptOf e).result = some m ∧
      m.track.ratingKey = some k ∧ has_playable_media m.track = true) :
    (processEntries threshold attemptOf entries).matched_tracks.length = 1 ∧
    (processEntries threshold attemptOf entries).matched_count =
      entries.length := by
  obtain ⟨e, rest, rfl⟩ := List.exists_cons_of_ne_nil hne
  obtain ⟨m, hres, hrk, hplay⟩ := hall e (by simp)
  unfold processEntries
  rw [List.enumFrom_cons]
  simp only [List.foldl_cons]
  have hstep : stepEntry threshold attemptOf initImportState (1, e) =
      ⟨[m.track], [], [k], 1, [1]⟩ := by
    simp only [stepEntry, hres, hrk]
    simp [hplay, initImportState]
  rw [hstep]
  have h := foldl_stepEntry_key_seen threshold attemptOf k rest 2
    ⟨[m.track], [], [k], 1, [1]⟩
    (fun e' he' => hall e' (List.mem_cons_of_mem e he')) (by simp)
  refine ⟨by rw [h.1]; rfl, ?_⟩
  rw [h.2.1]
  simp [List.length_cons]
  omega

/-- C4 (witness): three entries all resolving to the same playable
candidate: one matched track, `matched_count = 3`. -/
theorem c4_dedup_witness :
    (processEntries 70 (fun _ => attOf (fixTrack 3) 95)
        [fixEntry 1, fixEntry 2, fixEntry 3]).matched_tracks.length = 1 ∧
    (processEntries 70 (fun _ => attOf (fixTrack 3) 95)
        [fixEntry 1, fixEntry 2, fixEntry 3]).matched_count = 3 := by
  have h := c4_dedup_single_track 70 (fun _ => attOf (fixTrack 3) 95)
    [fixEntry 1, fixEntry 2, fixEntry 3] 3 (by decide)
    (fun e _ => ⟨⟨fixTrack 3, 95⟩, rfl, rfl, by decide⟩)
  exact ⟨h.1, h.2.trans (by decide)⟩

/-! ## C2: progress-callback invocations -/

/-- C2 (counterexample): an entry whose matched track is unplayable, and an
entry deduplicated as already seen, receive no progress-callback invocation —
the `continue` statements leave the loop before the callback.  Two-entry
runs: with the first entry unplayable the callback fires only with 2; with
the second entry a duplicate it fires only with 1 (the claim requires
[1, 2] in both runs). -/
theorem c2_skipped_calls_cex :
    (processEntries 70
        (fun e => if e.row = 1 then attOf fixNoPlay 95 else attOf (fixTrack 3) 95)
        [fixEntry 1, fixEntry 2]).progress_calls = [2] ∧
    (processEntries 70 (fun _ => attOf (fixTrack 3) 95)
        [fixEntry 1, fixEntry 2]).progress_calls = [1] := by
  exact ⟨rfl, rfl⟩

theorem foldl_stepEntry_calls (threshold : ℚ)
    (attemptOf : PlaylistEntry → MatchAttempt) :
    ∀ (l : List PlaylistEntry) (i : Nat) (st : ImportState),
      (∀ e ∈ l, (attemptOf e).result = none ∨
        (∃ m, (attemptOf e).result = some m ∧ m.track.ratingKey = none) ∨
        (∃ m rk, (attemptOf e).result = some m ∧ m.track.ratingKey = some rk ∧
          has_playable_media m.track = true)) →
      (playableKeysOf attemptOf l).Nodup →
      (∀ kk ∈ playableKeysOf attemptOf l, kk ∉ st.seen_rating_keys) →
      ((l.enumFrom i).foldl (stepEntry threshold attemptOf) st).progress_calls =
        st.progress_calls ++ List.range' i l.length := by
  intro l
  induction l with
  | nil => intro i st _ _ _; simp [List.enumFrom]
  | cons e rest ih =>
    intro i st hall hnd hdisj
    rw [List.enumFrom_cons]
    simp only [List.foldl_cons, List.length_cons, List.range'_succ]
    rcases hall e (by simp) with hnone | ⟨m, hres, hrk⟩ | ⟨m, rk, hres, hrk, hplay⟩
    · have hkeys : playableKeysOf attemptOf (e :: rest) =
          playableKeysOf attemptOf rest := by
        simp [playableKeysOf, List.filterMap_cons, hnone]
      have hstep : stepEntry threshold attemptOf st (i, e) =
          {st with
            unmatched := st.unmatched ++
              [⟨e.row, e.track_name, e.artist_name,
                if (attemptOf e).had_candidates ∧ 0 < (attemptOf e).best_score then
                  belowThresholdReason (attemptOf e).best_score threshold
                else notFoundReason⟩],
            progress_calls := st.progress_calls ++ [i]} := by
        simp only [stepEntry, hnone]
      rw [hstep]
      refine (ih (i + 1) _ (fun e' he' => hall e' (List.mem_cons_of_mem e he'))
        (hkeys ▸ hnd) ?_).trans ?_
      · intro kk hkk
        simpa using hdisj kk (hkeys ▸ hkk)
      · simp
    · have hkeys : playableKeysOf attemptOf (e :: rest) =
          playableKeysOf attemptOf rest := by
        by_cases hp : has_playable_media m.track = true
        · simp [playableKeysOf, List.filterMap_cons, hres, hp, hrk]
        · simp [playableKeysOf, List.filterMap_cons, hres, hp]
      have hstep : stepEntry threshold attemptOf st (i, e) =
          {st with
            unmatched := st.unmatched ++
              [⟨e.row, e.track_name, e.artist_name,
                if (attemptOf e).had_candidates ∧ 0 < (attemptOf e).best_score then
                  belowThresholdReason (attemptOf e).best_score threshold
                else notFoundReason⟩],
            progress_calls := st.progress_calls ++ [i]} := by
        simp only [stepEntry, hres, hrk]
      rw [hstep]
      refine (ih (i + 1) _ (fun e' he' => hall e' (List.mem_cons_of_mem e he'))
        (hkeys ▸ hnd) ?_).trans ?_
      · intro kk hkk
        simpa using hdisj kk (hkeys ▸ hkk)
      · simp
    · have hkeys : playableKeysOf attemptOf (e :: rest) =
          rk :: playableKeysOf attemptOf rest := by
        simp [playableKeysOf, List.filterMap_cons, hres, hplay, hrk]
      have hrkfresh : rk ∉ st.seen_rating_keys :=
        hdisj rk (by rw [hkeys]; exact List.mem_cons_self rk _)
      have hstep : stepEntry threshold attemptOf st (i, e) =
          {st with
            seen_rating_keys := st.seen_rating_keys ++ [rk],
            matched_tracks := st.matched_tracks ++ [m.track],
            matched_count := st.matched_count + 1,
            progress_calls := st.progress_calls ++ [i]} := by
        simp only [stepEntry, hres, hrk]
        simp [hplay, hrkfresh]
      rw [hstep]
      have hndrest : (playableKeysOf attemptOf rest).Nodup := by
        rw [hkeys] at hnd
        exact hnd.of_cons
      have hrknotin : rk ∉ playableKeysOf attemptOf rest := by
        rw [hkeys] at hnd
        exact (List.nodup_cons.1 hnd).1
      refine (ih (i + 1) _ (fun e' he' => hall e' (List.mem_cons_of_mem e he'))
        hndrest ?_).trans ?_
      · intro kk hkk
        have h1 : kk ∉ st.seen_rating_keys :=
          hdisj kk (by rw [hkeys]; exact List.mem_cons_of_mem rk hkk)
        have h2 : kk ≠ rk := fun h => hrknotin (h ▸ hkk)
        simp [h1, h2]
      · simp

/-- C2 (amended): the progress callback is invoked once after each entry
with the entry's 1-based index, provided no entry takes the unplayable or
already-seen `continue` path (those paths skip the callback — see the
counterexample); the source wraps the call in `try/except`, so a callback
failure only produces a log line and the loop state never depends on the
callback's behaviour. -/
theorem c2_progress_calls (threshold : ℚ)
    (attemptOf : PlaylistEntry → MatchAttempt) (entries : List PlaylistEntry)
    (hall : ∀ e ∈ entries, (attemptOf e).result = none ∨
      (∃ m, (attemptOf e).result = some m ∧ m.track.ratingKey = none) ∨
      (∃ m rk, (attemptOf e).result = some m ∧ m.track.ratingKey = some rk ∧
        has_playable_media m.track = true))
    (hnd : (playableKeysOf attemptOf entries).Nodup) :
    (processEntries threshold attemptOf entries).progress_calls =
      List.range' 1 entries.length := by
  unfold processEntries
  rw [foldl_stepEntry_calls threshold attemptOf entries 1 initImportState hall
    hnd (fun kk _ => by simp [initImportState])]
  rfl

/-- C2 (witness): two entries with distinct playable candidates: the
callback fires with 1 then 2. -/
theorem c2_progress_calls_witness :
    (processEntries 70
        (fun e => if e.row = 1 then attOf (fixTrack 3) 95 else attOf (fixTrack 4) 95)
        [fixEntry 1, fixEntry 2]).progress_calls = [1, 2] := by
  have h := c2_progress_calls 70
    (fun e => if e.row = 1 then attOf (fixTrack 3) 95 else attOf (fixTrack 4) 95)
    [fixEntry 1, fixEntry 2]
    (by
      intro e he
      simp only [List.mem_cons, List.not_mem_nil, or_false] at he
      rcases he with rfl | rfl
      · exact Or.inr (Or.inr ⟨⟨fixTrack 3, 95⟩, 3, rfl, rfl, by decide⟩)
      · exact Or.inr (Or.inr ⟨⟨fixTrack 4, 95⟩, 4, rfl, rfl, by decide⟩))
    (by decide)
  rw [h]
  rfl

/-! ## C1: exact normalized match, score 100 and early exit -/

theorem roundHalfEven_intCast (n : ℤ) : roundHalfEven (n : ℚ) = n := by
  simp only [roundHalfEven, Int.floor_intCast, sub_self]
  norm_num

theorem pyRound2_intCast (n : ℤ) : pyRound2 (n : ℚ) = n := by
  unfold pyRound2
  have h : ((n : ℚ) * 100) = ((n * 100 : ℤ) : ℚ) := by push_cast; ring
  rw [h, roundHalfEven_intCast]
  push_cast
  ring

theorem score_candidate_exact (wr pr : List Char → List Char → ℚ)
    (e : PlaylistEntry) (cand : Track)
    (hkey : normalize_key
        ((if cand.grandparentTitle ≠ [] then cand.grandparentTitle
          else cand.artist) ++ " - ".data ++ cand.title) =
      normalize_key (combined_key e))
    (halb : match e.album_name with
      | some a => a = [] ∨ cand.parentTitle = []
      | none => True)
    (hw : wr (normalize_key (combined_key e))
        (normalize_key (combined_key e)) = 100) :
    score_candidate wr pr e cand = 100 := by
  simp only [score_candidate]
  rw [hkey, hw]
  cases halbn : e.album_name with
  | none =>
    simpa using pyRound2_intCast 100
  | some a =>
    rw [halbn] at halb
    have hcond : ¬(a ≠ [] ∧ cand.parentTitle ≠ []) := by
      rcases halb with h | h
      · intro hc; exact hc.1 h
      · intro hc; exact hc.2 h
    simp only [if_neg hcond]
    simpa using pyRound2_intCast 100

/-- C1 (amended): if the first candidate of the first query has a normalized
"<artist> - <title>" equal to the entry's normalized combined key, no album
blend applies (the entry has no album or the candidate album is empty) and
the threshold is at most 100, then the Scorer returns exactly 100 and the
Matcher returns that candidate immediately: the result is the same for every
tail `qs` of further queries and `cs` of further candidates, none of which
are evaluated. -/
theorem c1_exact_match_early_exit (wr pr : List Char → List Char → ℚ)
    (sec : MusicSection) (threshold : ℚ) (e : PlaylistEntry)
    (q : SearchQuery) (qs : List SearchQuery) (c : Track) (cs : List Track)
    (hq : build_queries e = q :: qs)
    (hc : search_candidates sec q = c :: cs)
    (hth : threshold ≤ 100)
    (hkey : normalize_key
        ((if c.grandparentTitle ≠ [] then c.grandparentTitle else c.artist) ++
          " - ".data ++ c.title) = normalize_key (combined_key e))
    (halb : match e.album_name with
      | some a => a = [] ∨ c.parentTitle = []
      | none => True)
    (hw : wr (normalize_key (combined_key e))
        (normalize_key (combined_key e)) = 100) :
    find_best_match wr pr sec threshold e = ⟨some ⟨c, 100⟩, 100, true⟩ := by
  have hscore : score_candidate wr pr e c = 100 :=
    score_candidate_exact wr pr e c hkey halb hw
  unfold find_best_match
  rw [hq]
  simp only [scanQueries, hc]
  have hne : (c :: cs) ≠ ([] : List Track) := by simp
  rw [if_neg hne]
  simp only [scanCandidates, List.not_mem_nil, if_false, hscore]
  have hcond : (decide (threshold ≤ (100:ℚ)) &&
      (match (none : Option MatchResult) with
       | none => true
       | some b => decide (b.score < 100))) = true := by
    simp [hth]
  rw [hcond]
  simp

/-- C1 (counterexample): the claim as stated fails twice.  With an album on
both sides, equal normalized keys give score 70, not 100 (the 0.7/0.3 album
blend); and with a threshold above 100 a scoring-100 candidate is not
adopted, so the matcher does not stop and returns no result. -/
theorem c1_exact_match_cex :
    (score_candidate simExact simExact albEntry albTrack = 70 ∧
      normalize_key
        ((if albTrack.grandparentTitle ≠ [] then albTrack.grandparentTitle
          else albTrack.artist) ++ " - ".data ++ albTrack.title) =
        normalize_key (combined_key albEntry)) ∧
    ((find_best_match simExact simExact xSection 150 xEntry).result = none ∧
      normalize_key
        ((if xTrack.grandparentTitle ≠ [] then xTrack.grandparentTitle
          else xTrack.artist) ++ " - ".data ++ xTrack.title) =
        normalize_key (combined_key xEntry)) := by
  constructor
  · constructor
    · have e2 : normalize_key
          ((if albTrack.grandparentTitle ≠ [] then albTrack.grandparentTitle
            else albTrack.artist) ++ " - ".data ++ albTrack.title) =
          normalize_key (combined_key albEntry) := by decide
      simp only [score_candidate]
      rw [e2]
      have hsim : simExact (normalize_key (combined_key albEntry))
          (normalize_key (combined_key albEntry)) = 100 := by
        simp [simExact]
      rw [hsim]
      have halbum : albEntry.album_name = some ("Help!".data) := rfl
      rw [halbum]
      have hcond : ("Help!".data ≠ [] ∧ albTrack.parentTitle ≠ []) := by decide
      simp only [if_pos hcond]
      have hz : simExact (normalize_key "Help!".data)
          (normalize_key albTrack.parentTitle) = 0 := by
        unfold simExact
        rw [if_neg (by decide)]
      rw [hz]
      have harith : (100 : ℚ) * (7 / 10) + 0 * (3 / 10) = ((70 : ℤ) : ℚ) := by
        norm_num
      rw [harith, pyRound2_intCast]
      norm_num
    · decide
  · constructor
    · have hq : build_queries xEntry = [⟨some "x".data, none, none⟩] := by decide
      have hc : search_candidates xSection ⟨some "x".data, none, none⟩ =
          [xTrack] := rfl
      have hscore : score_candidate simExact simExact xEntry xTrack = 100 := by
        apply score_candidate_exact
        · decide
        · trivial
        · simp [simExact]
      unfold find_best_match
      rw [hq]
      simp only [scanQueries, hc]
      have hne : ([xTrack] : List Track) ≠ [] := by simp
      rw [if_neg hne]
      simp only [scanCandidates, List.not_mem_nil, if_false, hscore]
      have hcond : (decide ((150:ℚ) ≤ (100:ℚ)) &&
          (match (none : Option MatchResult) with
           | none => true
           | some b => decide (b.score < 100))) = false := by
        simp
        norm_num
      rw [hcond]
      simp [scanQueries, scanCandidates]
    · decide

/-- C1 (witness): the spec's end-to-end scenario; the matcher returns the
exactly matching candidate with score 100, whatever the later queries would
have returned. -/
theorem c1_exact_match_witness :
    find_best_match simExact simExact ySection 70 yEntry =
      ⟨some ⟨yTrack, 100⟩, 100, true⟩ := by
  apply c1_exact_match_early_exit simExact simExact ySection 70 yEntry
    ⟨some "Yesterday".data, some "The Beatles".data, none⟩
    [⟨some "Yesterday".data, none, none⟩] yTrack []
  · decide
  · rfl
  · norm_num
  · decide
  · trivial
  · simp [simExact]

/-! ## C7: title variant generation -/

theorem stripB_cons (c : Char) (w : List Char) :
    stripB (c :: w) =
      if stripB w = [] then (if pyIsSpace c then [] else [c])
      else c :: stripB w := by
  unfold stripB
  have h : (c :: w).reverse = w.reverse ++ [c] := by simp
  rw [h, List.dropWhile_append]
  by_cases hw : (w.reverse.dropWhile pyIsSpace) = []
  · rw [if_pos (by simp [hw]), if_pos (by simp [hw])]
    by_cases hc : pyIsSpace c
    · simp [List.dropWhile, hc]
    · simp [List.dropWhile, hc]
  · rw [if_neg (by simp [hw]), if_neg (by simp [hw])]
    simp

theorem pyStrip_eq_nil_iff (l : List Char) :
    pyStrip l = [] ↔ ∀ c ∈ l, pyIsSpace c := by
  unfold pyStrip stripF
  induction l with
  | nil => simp [stripB]
  | cons c rest ih =>
    by_cases hc : pyIsSpace c
    · rw [List.dropWhile_cons_of_pos hc]
      simp only [List.mem_cons]
      constructor
      · intro h d hd
        rcases hd with rfl | hd
        · exact hc
        · exact (ih.1 h) d hd
      · intro h
        exact ih.2 (fun d hd => h d (Or.inr hd))
    · rw [List.dropWhile_cons_of_neg hc]
      rw [stripB_cons]
      constructor
      · intro h
        by_cases hw : stripB rest = [] <;> simp [hw, hc] at h
      · intro h
        exact absurd (h c (by simp)) hc

theorem subScan_id_of_none
    (matchAt : Char → List Char → Option (List Char)) (rep : List Char) :
    ∀ (fuel : Nat) (l : List Char),
      (∀ c rest, c :: rest <:+ l → matchAt c rest = none) →
      subScan matchAt rep fuel l = l := by
  intro fuel
  induction fuel with
  | zero => intro l _; cases l <;> rfl
  | succ f ih =>
    intro l hnone
    cases l with
    | nil => rfl
    | cons c rest =>
      simp only [subScan, hnone c rest (List.suffix_refl _)]
      exact congrArg (List.cons c) (ih rest (fun c' rest' hs => hnone c' rest'
        (hs.trans (List.suffix_cons c rest))))

theorem mem_suffix_space {l s : List Char} (hl : ∀ c ∈ l, pyIsSpace c)
    (hs : s <:+ l) : ∀ c ∈ s, pyIsSpace c :=
  fun c hc => hl c (hs.subset hc)

theorem parenSub_allSpace (l : List Char) (h : ∀ c ∈ l, pyIsSpace c) :
    pySub matchParenBlock [] l = l := by
  apply subScan_id_of_none
  intro c rest hsuf
  have hc : pyIsSpace c := h c (hsuf.subset (by simp))
  have hrest : ∀ d ∈ rest, pyIsSpace d :=
    fun d hd => h d (hsuf.subset (by simp [hd]))
  have hcp : c ≠ '(' := by
    intro he
    rw [he] at hc
    exact absurd hc (by decide)
  unfold matchParenBlock
  rw [if_neg hcp, if_pos hc]
  rw [List.dropWhile_eq_nil_iff.2 hrest]

theorem dashSplitHead_allSpace (l : List Char) (h : ∀ c ∈ l, pyIsSpace c) :
    dashSplitHead l = l := by
  induction l with
  | nil => rfl
  | cons c rest ih =>
    have hrest : ∀ d ∈ rest, pyIsSpace d := fun d hd => h d (by simp [hd])
    simp only [dashSplitHead, List.dropWhile_eq_nil_iff.2 hrest]
    simp [ih hrest]

theorem featSub_allSpace (l : List Char) (h : ∀ c ∈ l, pyIsSpace c) :
    pySub matchFeatAfter [] l = l := by
  apply subScan_id_of_none
  intro c rest hsuf
  have hall : ∀ d ∈ c :: rest, pyIsSpace d := mem_suffix_space h hsuf
  simp only [matchFeatAfter]
  rw [List.dropWhile_eq_nil_iff.2 hall]
  simp

theorem addVariant_strip_nil (st : List (List Char) × List (List Char))
    (v : List Char) (h : pyStrip v = []) : addVariant st v = st := by
  unfold addVariant
  rw [if_neg]
  intro hc
  exact hc.1 h

theorem addVariant_cases (st : List (List Char) × List (List Char))
    (v : List Char) :
    addVariant st v = st ∨
      (pyStrip v ≠ [] ∧ addVariant st v =
        (st.1 ++ [pyStrip v], st.2 ++ [(pyStrip v).map toLowerPy])) := by
  unfold addVariant
  by_cases h : pyStrip v ≠ [] ∧ (pyStrip v).map toLowerPy ∉ st.2
  · rw [if_pos h]
    exact Or.inr ⟨h.1, rfl⟩
  · rw [if_neg h]
    exact Or.inl rfl

/-- The seen-set invariant of `_title_variants`. -/
def VariantInv (st : List (List Char) × List (List Char)) : Prop :=
  st.2 = st.1.map (fun v => v.map toLowerPy) ∧ st.2.Nodup ∧
    ∀ v ∈ st.1, v ≠ []

theorem addVariant_inv (st : List (List Char) × List (List Char))
    (v : List Char) (h : VariantInv st) : VariantInv (addVariant st v) := by
  obtain ⟨hmap, hnd, hne⟩ := h
  unfold addVariant
  by_cases hc : pyStrip v ≠ [] ∧ (pyStrip v).map toLowerPy ∉ st.2
  · rw [if_pos hc]
    refine ⟨by simp [hmap], ?_, ?_⟩
    · rw [List.nodup_append]
      refine ⟨hnd, List.nodup_singleton _, fun x hx hy => ?_⟩
      simp only [List.mem_singleton] at hy
      subst hy
      exact hc.2 hx
    · intro x hx
      rcases List.mem_append.1 hx with hx | hx
      · exact hne x hx
      · rw [List.mem_singleton.1 hx]
        exact hc.1
  · rw [if_neg hc]
    exact ⟨hmap, hnd, hne⟩

theorem addVariant_head (st : List (List Char) × List (List Char))
    (v : List Char) (h : st.1 ≠ []) :
    (addVariant st v).1.head? = st.1.head? := by
  rcases addVariant_cases st v with hcase | ⟨_, hcase⟩
  · rw [hcase]
  · rw [hcase]
    cases hst : st.1 with
    | nil => exact absurd hst h
    | cons a t => rfl

theorem addVariant_length (st : List (List Char) × List (List Char))
    (v : List Char) :
    st.1.length ≤ (addVariant st v).1.length ∧
      (addVariant st v).1.length ≤ st.1.length + 1 := by
  rcases addVariant_cases st v with hcase | ⟨_, hcase⟩
  · rw [hcase]
    omega
  · rw [hcase]
    simp

/-- C7 (counterexample): `_add` strips each candidate, so for a
whitespace-only title the variant list is empty (no first element, length
0), and for a padded title the first element is the stripped title, not the
raw title. -/
theorem c7_title_variants_cex :
    title_variants ("   ".data) = [] ∧
      (title_variants (" x ".data)).head? = some ("x".data) := by
  exact ⟨rfl, rfl⟩

/-- C7 (amended): for a whitespace-only raw title the generator returns the
empty sequence; otherwise the first element is the stripped raw title and
the sequence has between 1 and 4 elements.  In all cases there are no
case-insensitive duplicates and no empty or whitespace-only entries. -/
theorem c7_title_variants_spec (title : List Char) :
    (pyStrip title = [] → title_variants title = []) ∧
    (pyStrip title ≠ [] →
      (title_variants title).head? = some (pyStrip title) ∧
      1 ≤ (title_variants title).length ∧ (title_variants title).length ≤ 4) ∧
    ((title_variants title).map (fun v => v.map toLowerPy)).Nodup ∧
    (∀ v ∈ title_variants title, v ≠ []) := by
  refine ⟨?_, ?_, ?_, ?_⟩
  · intro hnil
    have hsp : ∀ c ∈ title, pyIsSpace c := (pyStrip_eq_nil_iff title).1 hnil
    simp only [title_variants]
    rw [parenSub_allSpace title hsp, dashSplitHead_allSpace title hsp,
      featSub_allSpace title hsp]
    rw [addVariant_strip_nil _ _ hnil, addVariant_strip_nil _ _ hnil,
      addVariant_strip_nil _ _ hnil, addVariant_strip_nil _ _ hnil]
  · intro hne
    have h1 : addVariant ([], []) title =
        ([pyStrip title], [(pyStrip title).map toLowerPy]) := by
      unfold addVariant
      rw [if_pos ⟨hne, by simp⟩]
      simp
    simp only [title_variants]
    rw [h1]
    generalize pySub matchParenBlock [] title = p
    generalize dashSplitHead p = d
    generalize pySub matchFeatAfter [] d = f4
    have hbase : (([pyStrip title], [(pyStrip title).map toLowerPy]) :
        List (List Char) × List (List Char)).1 ≠ [] := by simp
    have hlen1 :
        ∀ (st : List (List Char) × List (List Char)) (v : List Char),
          st.1 ≠ [] → (addVariant st v).1 ≠ [] := by
      intro st v h
      rcases addVariant_cases st v with hcase | ⟨_, hcase⟩
      · rw [hcase]; exact h
      · rw [hcase]; simp
    have hA := hlen1 ([pyStrip title], [(pyStrip title).map toLowerPy]) p hbase
    have hB := hlen1 (addVariant ([pyStrip title],
      [(pyStrip title).map toLowerPy]) p) d hA
    refine ⟨?_, ?_, ?_⟩
    · rw [addVariant_head _ f4 hB, addVariant_head _ d hA,
        addVariant_head _ p hbase]
      rfl
    · have lA := (addVariant_length
        ([pyStrip title], [(pyStrip title).map toLowerPy]) p).1
      have lB := (addVariant_length (addVariant ([pyStrip title],
        [(pyStrip title).map toLowerPy]) p) d).1
      have lC := (addVariant_length (addVariant (addVariant ([pyStrip title],
        [(pyStrip title).map toLowerPy]) p) d) f4).1
      have hb : (([pyStrip title], [(pyStrip title).map toLowerPy]) :
          List (List Char) × List (List Char)).1.length = 1 := rfl
      omega
    · have lA := (addVariant_length
        ([pyStrip title], [(pyStrip title).map toLowerPy]) p).2
      have lB := (addVariant_length (addVariant ([pyStrip title],
        [(pyStrip title).map toLowerPy]) p) d).2
      have lC := (addVariant_length (addVariant (addVariant ([pyStrip title],
        [(pyStrip title).map toLowerPy]) p) d) f4).2
      have hb : (([pyStrip title], [(pyStrip title).map toLowerPy]) :
          List (List Char) × List (List Char)).1.length = 1 := rfl
      omega
  · have hinv : VariantInv (addVariant (addVariant (addVariant
        (addVariant ([], []) title) (pySub matchParenBlock [] title))
        (dashSplitHead (pySub matchParenBlock [] title)))
        (pySub matchFeatAfter []
          (dashSplitHead (pySub matchParenBlock [] title)))) := by
      apply addVariant_inv
      apply addVariant_inv
      apply addVariant_inv
      apply addVariant_inv
      exact ⟨rfl, List.nodup_nil, by simp⟩
    simp only [title_variants]
    rw [← hinv.1]
    exact hinv.2.1
  · have hinv : VariantInv (addVariant (addVariant (addVariant
        (addVariant ([], []) title) (pySub matchParenBlock [] title))
        (dashSplitHead (pySub matchParenBlock [] title)))
        (pySub matchFeatAfter []
          (dashSplitHead (pySub matchParenBlock [] title)))) := by
      apply addVariant_inv
      apply addVariant_inv
      apply addVariant_inv
      apply addVariant_inv
      exact ⟨rfl, List.nodup_nil, by simp⟩
    simp only [title_variants]
    exact hinv.2.2

/-- C7 (witness): the amended claim at a concrete messy title. -/
theorem c7_title_variants_witness :
    (title_variants "Song Title (feat. Artist B) - 2011 Remaster".data).head? =
        some ("Song Title (feat. Artist B) - 2011 Remaster".data) ∧
      1 ≤ (title_variants "Song Title (feat. Artist B) - 2011 Remaster".data).length ∧
      (title_variants "Song Title (feat. Artist B) - 2011 Remaster".data).length ≤ 4 := by
  have h := ((c7_title_variants_spec
    "Song Title (feat. Artist B) - 2011 Remaster".data).2.1 (by decide))
  refine ⟨?_, h.2⟩
  rw [h.1]
  decide

/-! ## C6: character-class facts -/

theorem isLowerAlnum_iff (c : Char) :
    isLowerAlnum c = true ↔
      (97 ≤ c.toNat ∧ c.toNat ≤ 122) ∨ (48 ≤ c.toNat ∧ c.toNat ≤ 57) := by
  simp [isLowerAlnum]

theorem good_not_space {c : Char} (h : isLowerAlnum c = true) :
    pyIsSpace c = false := by
  have hn := (isLowerAlnum_iff c).1 h
  simp only [pyIsSpace, Bool.or_eq_false_iff, beq_eq_false_iff_ne, ne_eq]
  omega

theorem space_toNat {c : Char} (h : pyIsSpace c = true) :
    c.toNat = 32 ∨ c.toNat = 9 ∨ c.toNat = 10 ∨ c.toNat = 13 ∨
      c.toNat = 11 ∨ c.toNat = 12 := by
  simpa [pyIsSpace, or_assoc] using h

theorem translit_ascii {c : Char} (h : c.toNat < 128) : translit c = [c] := by
  unfold translit
  rw [if_pos h]

theorem toLowerPy_fix {c : Char} (h : isLowerAlnum c = true ∨ c = ' ') :
    toLowerPy c = c := by
  have hn : (97 ≤ c.toNat ∧ c.toNat ≤ 122) ∨ (48 ≤ c.toNat ∧ c.toNat ≤ 57) ∨
      c.toNat = 32 := by
    rcases h with h | rfl
    · rcases (isLowerAlnum_iff c).1 h with h | h
      · exact Or.inl h
      · exact Or.inr (Or.inl h)
    · exact Or.inr (Or.inr rfl)
  unfold toLowerPy
  rw [if_neg (by simp only [Bool.and_eq_true, decide_eq_true_eq]; omega)]
  rw [if_neg (by intro he; subst he; revert hn; decide)]
  rw [if_neg (by intro he; subst he; revert hn; decide)]
  rw [if_neg (by intro he; subst he; revert hn; decide)]

theorem goodOrSpace_ascii {c : Char} (h : isLowerAlnum c = true ∨ c = ' ') :
    c.toNat < 128 := by
  rcases h with h | rfl
  · have := (isLowerAlnum_iff c).1 h
    omega
  · decide

theorem collapse_chars :
    ∀ (n : Nat) (l : List Char), l.length ≤ n →
      ∀ c ∈ collapse l, isLowerAlnum c = true ∨ c = ' ' := by
  intro n
  induction n with
  | zero =>
    intro l hl
    have : l = [] := List.eq_nil_of_length_eq_zero (Nat.le_zero.1 hl)
    subst this
    simp [collapse_nil]
  | succ m ih =>
    intro l hl c hc
    cases l with
    | nil => simp [collapse_nil] at hc
    | cons a rest =>
      rw [collapse_cons] at hc
      by_cases ha : isLowerAlnum a
      · rw [if_pos ha] at hc
        rcases List.mem_cons.1 hc with rfl | hc
        · exact Or.inl ha
        · exact ih rest (by simpa using hl) c hc
      · rw [if_neg ha] at hc
        rcases List.mem_cons.1 hc with rfl | hc
        · exact Or.inr rfl
        · refine ih _ ?_ c hc
          have := dropWhile_length_le (fun d => !isLowerAlnum d) rest
          simp only [List.length_cons] at hl
          omega

/-! ## C6: case insensitivity -/

set_option maxRecDepth 4000 in
theorem lower_translit_upper (c : Char) :
    (translit (pyUpper c)).map toLowerPy = (translit c).map toLowerPy := by
  by_cases h : c.toNat < 128
  · have hmem : c ∈ (List.range 128).map Char.ofNat :=
      List.mem_map.2 ⟨c.toNat, List.mem_range.2 h, Char.ofNat_toNat c⟩
    have hall : ∀ d ∈ (List.range 128).map Char.ofNat,
        (translit (pyUpper d)).map toLowerPy = (translit d).map toLowerPy := by
      decide
    exact hall c hmem
  · by_cases h1 : c = 'é'
    · subst h1; decide
    · by_cases h2 : c = 'ü'
      · subst h2; decide
      · by_cases h3 : c = 'ñ'
        · subst h3; decide
        · have hup : pyUpper c = c := by
            unfold pyUpper
            have hno : ¬((97 ≤ c.toNat && c.toNat ≤ 122) = true) := by
              simp only [Bool.and_eq_true, decide_eq_true_eq]
              omega
            rw [if_neg hno, if_neg h1, if_neg h2, if_neg h3]
          rw [hup]

theorem unidecode_upper (x : List Char) :
    ((unidecodeStr (x.map pyUpper)).map toLowerPy) =
      ((unidecodeStr x).map toLowerPy) := by
  unfold unidecodeStr
  induction x with
  | nil => rfl
  | cons c rest ih =>
    simp only [List.map_cons, List.flatMap_cons, List.map_append]
    rw [ih, lower_translit_upper c]

theorem normalize_key_upper (x : List Char) :
    normalize_key (x.map pyUpper) = normalize_key x := by
  simp only [normalize_key]
  rw [unidecode_upper]

/-! ## C6: normal form of collapse-and-strip -/

theorem wordsOf_nil : wordsOf [] = [] := by
  unfold wordsOf
  rfl

theorem wordsOf_cons_good {c : Char} {rest : List Char}
    (h : isLowerAlnum c = true) :
    wordsOf (c :: rest) =
      (c :: rest.takeWhile isLowerAlnum) ::
        wordsOf (rest.dropWhile isLowerAlnum) := by
  unfold wordsOf
  rw [if_pos h, ← wordsOf.eq_def]

theorem wordsOf_cons_neg {c : Char} {rest : List Char}
    (h : isLowerAlnum c = false) :
    wordsOf (c :: rest) = wordsOf rest := by
  unfold wordsOf
  rw [if_neg (by simp [h]), ← wordsOf.eq_def]

theorem collapse_split (l : List Char) :
    collapse l = l.takeWhile isLowerAlnum ++
      collapse (l.dropWhile isLowerAlnum) := by
  induction l with
  | nil => rfl
  | cons c rest ih =>
    by_cases hc : isLowerAlnum c
    · rw [collapse_cons, if_pos hc, List.takeWhile_cons_of_pos hc,
        List.dropWhile_cons_of_pos hc, ih]
      rfl
    · rw [List.takeWhile_cons_of_neg hc, List.dropWhile_cons_of_neg hc]
      rfl

theorem stripB_eq_nil_iff (l : List Char) :
    stripB l = [] ↔ (l.reverse.dropWhile pyIsSpace) = [] := by
  unfold stripB
  exact List.reverse_eq_nil_iff

theorem stripB_append (a b : List Char) :
    stripB (a ++ b) = if stripB b = [] then stripB a else a ++ stripB b := by
  unfold stripB
  rw [List.reverse_append, List.dropWhile_append]
  by_cases hb : (b.reverse.dropWhile pyIsSpace) = []
  · rw [if_pos (by simp [hb]), if_pos (by simp [hb])]
  · rw [if_neg (by simp [hb]), if_neg (by simp [hb])]
    simp

theorem stripB_no_space {l : List Char}
    (h : ∀ c ∈ l, pyIsSpace c = false) : stripB l = l := by
  unfold stripB
  cases hrev : l.reverse with
  | nil =>
    simp [List.reverse_eq_nil_iff.1 hrev]
  | cons d t =>
    have hd : pyIsSpace d = false := by
      apply h
      rw [← List.mem_reverse, hrev]
      simp
    rw [List.dropWhile_cons_of_neg (by simp [hd]), ← hrev,
      List.reverse_reverse]

theorem wordsOf_ne_nil :
    ∀ (n : Nat) (l : List Char), l.length ≤ n →
      ∀ w ∈ wordsOf l, w ≠ [] := by
  intro n
  induction n with
  | zero =>
    intro l hl
    have : l = [] := List.eq_nil_of_length_eq_zero (Nat.le_zero.1 hl)
    subst this
    simp [wordsOf_nil]
  | succ m ih =>
    intro l hl w hw
    cases l with
    | nil => simp [wordsOf_nil] at hw
    | cons c rest =>
      by_cases hc : isLowerAlnum c
      · rw [wordsOf_cons_good hc] at hw
        rcases List.mem_cons.1 hw with rfl | hw
        · simp
        · refine ih _ ?_ w hw
          have := dropWhile_length_le isLowerAlnum rest
          simp only [List.length_cons] at hl
          omega
      · rw [wordsOf_cons_neg (by simpa using hc)] at hw
        refine ih rest ?_ w hw
        simp only [List.length_cons] at hl
        omega

theorem wordsOf_good :
    ∀ (n : Nat) (l : List Char), l.length ≤ n →
      ∀ w ∈ wordsOf l, ∀ c ∈ w, isLowerAlnum c = true := by
  intro n
  induction n with
  | zero =>
    intro l hl
    have : l = [] := List.eq_nil_of_length_eq_zero (Nat.le_zero.1 hl)
    subst this
    simp [wordsOf_nil]
  | succ m ih =>
    intro l hl w hw c hc
    cases l with
    | nil => simp [wordsOf_nil] at hw
    | cons a rest =>
      by_cases ha : isLowerAlnum a
      · rw [wordsOf_cons_good ha] at hw
        rcases List.mem_cons.1 hw with rfl | hw
        · rcases List.mem_cons.1 hc with rfl | hc
          · exact ha
          · exact List.mem_takeWhile_imp hc
        · refine ih _ ?_ w hw c hc
          have := dropWhile_length_le isLowerAlnum rest
          simp only [List.length_cons] at hl
          omega
      · rw [wordsOf_cons_neg (by simpa using ha)] at hw
        refine ih rest ?_ w hw c hc
        simp only [List.length_cons] at hl
        omega

theorem wordsOf_skip (l : List Char) :
    wordsOf (l.dropWhile (fun c => !isLowerAlnum c)) = wordsOf l := by
  induction l with
  | nil => rfl
  | cons c rest ih =>
    by_cases hc : isLowerAlnum c
    · rw [List.dropWhile_cons_of_neg (by simp [hc])]
    · rw [List.dropWhile_cons_of_pos (by simp [hc]),
        wordsOf_cons_neg (by simpa using hc)]
      exact ih

theorem joinTail_eq_nil_iff (ws : List (List Char)) :
    joinTail ws = [] ↔ ws = [] := by
  cases ws <;> simp [joinTail]

theorem head_dropWhile_good_or_nil (p : Char → Bool) (l : List Char) :
    l.dropWhile p = [] ∨
      ∃ g t, l.dropWhile p = g :: t ∧ p g = false := by
  cases hd : l.dropWhile p with
  | nil => exact Or.inl rfl
  | cons g t =>
    refine Or.inr ⟨g, t, rfl, ?_⟩
    have := List.head?_dropWhile_not p l
    rw [hd] at this
    simpa using this

theorem stripF_collapse_aux (d : List Char)
    (h : d = [] ∨ ∃ g t, d = g :: t ∧ isLowerAlnum g = true) :
    stripF (collapse d) = collapse d := by
  rcases h with rfl | ⟨g, t, rfl, hg⟩
  · rfl
  · rw [collapse_cons, if_pos hg]
    unfold stripF
    rw [List.dropWhile_cons_of_neg (by simp [good_not_space hg])]

theorem stripF_collapse (l : List Char) :
    stripF (collapse l) =
      collapse (l.dropWhile (fun c => !isLowerAlnum c)) := by
  cases l with
  | nil => rfl
  | cons c rest =>
    by_cases hc : isLowerAlnum c
    · rw [List.dropWhile_cons_of_neg (by simp [hc])]
      apply stripF_collapse_aux
      exact Or.inr ⟨c, rest, rfl, hc⟩
    · rw [collapse_cons, if_neg hc,
        List.dropWhile_cons_of_pos (by simp [hc])]
      unfold stripF
      rw [List.dropWhile_cons_of_pos (by decide)]
      show stripF _ = _
      apply stripF_collapse_aux
      rcases head_dropWhile_good_or_nil (fun d => !isLowerAlnum d) rest with
        h | ⟨g', t', h, hg'⟩
      · rw [h]
        exact Or.inl rfl
      · rw [h]
        exact Or.inr ⟨g', t', rfl, by simpa using hg'⟩

theorem wordsOf_ne_nil' (l : List Char) : ∀ w ∈ wordsOf l, w ≠ [] :=
  wordsOf_ne_nil l.length l (Nat.le_refl _)

theorem wordsOf_good' (l : List Char) :
    ∀ w ∈ wordsOf l, ∀ c ∈ w, isLowerAlnum c = true :=
  wordsOf_good l.length l (Nat.le_refl _)

theorem stripB_collapse_words :
    ∀ (n : Nat) (v : List Char), v.length ≤ n →
      ((v = [] ∨ ∃ g t, v = g :: t ∧ isLowerAlnum g = true) →
        stripB (collapse v) = joinSpace (wordsOf v)) ∧
      ((v = [] ∨ ∃ g t, v = g :: t ∧ isLowerAlnum g = false) →
        stripB (collapse v) = joinTail (wordsOf v)) := by
  intro n
  induction n with
  | zero =>
    intro v hv
    have hnil : v = [] := List.eq_nil_of_length_eq_zero (Nat.le_zero.1 hv)
    subst hnil
    constructor <;> intro _ <;>
      simp [collapse_nil, wordsOf_nil, stripB, joinSpace, joinTail]
  | succ m ih =>
    intro v hv
    constructor
    · rintro (rfl | ⟨g, t, rfl, hg⟩)
      · simp [collapse_nil, wordsOf_nil, stripB, joinSpace]
      · simp only [List.length_cons] at hv
        rw [collapse_cons, if_pos hg, stripB_cons]
        have hW : ∀ c ∈ t.takeWhile isLowerAlnum, pyIsSpace c = false :=
          fun c hc => good_not_space (List.mem_takeWhile_imp hc)
        have hdlen : (t.dropWhile isLowerAlnum).length ≤ m := by
          have := dropWhile_length_le isLowerAlnum t
          omega
        have hd : stripB (collapse (t.dropWhile isLowerAlnum)) =
            joinTail (wordsOf (t.dropWhile isLowerAlnum)) := by
          refine (ih _ hdlen).2 ?_
          rcases head_dropWhile_good_or_nil isLowerAlnum t with h | ⟨g', t', h, hg'⟩
          · exact Or.inl h
          · exact Or.inr ⟨g', t', h, hg'⟩
        have hstript : stripB (collapse t) =
            t.takeWhile isLowerAlnum ++
              joinTail (wordsOf (t.dropWhile isLowerAlnum)) := by
          rw [collapse_split t, stripB_append, hd]
          by_cases hjt : joinTail (wordsOf (t.dropWhile isLowerAlnum)) = []
          · rw [if_pos hjt, stripB_no_space hW, hjt, List.append_nil]
          · rw [if_neg hjt]
        rw [wordsOf_cons_good hg]
        by_cases hz : stripB (collapse t) = []
        · rw [if_pos hz, if_neg (by simp [good_not_space hg])]
          rw [hstript] at hz
          obtain ⟨h1, h2⟩ := List.append_eq_nil.mp hz
          simp [joinSpace, h1, h2]
        · rw [if_neg hz, hstript]
          simp [joinSpace]
    · rintro (rfl | ⟨g, t, rfl, hg⟩)
      · simp [collapse_nil, wordsOf_nil, stripB, joinTail]
      · simp only [List.length_cons] at hv
        rw [collapse_cons, if_neg (by simp [hg]), stripB_cons]
        have hdlen : (t.dropWhile (fun c => !isLowerAlnum c)).length ≤ m := by
          have := dropWhile_length_le (fun c => !isLowerAlnum c) t
          omega
        have hX : stripB (collapse (t.dropWhile (fun c => !isLowerAlnum c))) =
            joinSpace (wordsOf (t.dropWhile (fun c => !isLowerAlnum c))) := by
          refine (ih _ hdlen).1 ?_
          rcases head_dropWhile_good_or_nil (fun c => !isLowerAlnum c) t with
            h | ⟨g', t', h, hg'⟩
          · exact Or.inl h
          · exact Or.inr ⟨g', t', h, by simpa using hg'⟩
        have hwords : wordsOf (g :: t) =
            wordsOf (t.dropWhile (fun c => !isLowerAlnum c)) := by
          rw [wordsOf_cons_neg hg, wordsOf_skip]
        rw [hwords]
        cases hws : wordsOf (t.dropWhile (fun c => !isLowerAlnum c)) with
        | nil =>
          rw [hws] at hX
          rw [if_pos (by rw [hX]; rfl)]
          rw [if_pos (by decide)]
          rfl
        | cons w ws =>
          rw [hws] at hX
          have hwne : w ≠ [] :=
            wordsOf_ne_nil' _ w (by rw [hws]; exact List.mem_cons_self w ws)
          have hne : stripB (collapse (t.dropWhile (fun c => !isLowerAlnum c))) ≠
              [] := by
            rw [hX]
            cases hw : w with
            | nil => exact absurd hw hwne
            | cons a b => simp [joinSpace]
          rw [if_neg hne, hX]
          rfl

theorem pyStrip_collapse (u : List Char) :
    pyStrip (collapse u) = joinSpace (wordsOf u) := by
  unfold pyStrip
  rw [stripF_collapse]
  have h := (stripB_collapse_words
    ((u.dropWhile (fun c => !isLowerAlnum c)).length) _ (Nat.le_refl _)).1
  rw [h, wordsOf_skip]
  rcases head_dropWhile_good_or_nil (fun c => !isLowerAlnum c) u with
    hh | ⟨g', t', hh, hg'⟩
  · exact Or.inl hh
  · exact Or.inr ⟨g', t', hh, by simpa using hg'⟩

theorem wordsOf_joinSpace :
    ∀ (ws : List (List Char)), (∀ w ∈ ws, w ≠ []) →
      (∀ w ∈ ws, ∀ c ∈ w, isLowerAlnum c = true) →
      wordsOf (joinSpace ws) = ws := by
  intro ws
  induction ws with
  | nil => intro _ _; simp [joinSpace, wordsOf_nil]
  | cons w ws ih =>
    intro h1 h2
    obtain ⟨g, w', rfl⟩ : ∃ g w', w = g :: w' := by
      cases w with
      | nil => exact absurd rfl (h1 _ (by simp))
      | cons g w' => exact ⟨g, w', rfl⟩
    have hg : isLowerAlnum g = true := h2 (g :: w') (by simp) g (by simp)
    have hw' : ∀ c ∈ w', isLowerAlnum c = true := fun c hc =>
      h2 (g :: w') (by simp) c (by simp [hc])
    show wordsOf ((g :: w') ++ joinTail ws) = (g :: w') :: ws
    rw [List.cons_append, wordsOf_cons_good hg,
      List.takeWhile_append_of_pos hw', List.dropWhile_append_of_pos hw']
    cases ws with
    | nil => simp [joinTail, wordsOf_nil]
    | cons v vs =>
      have hjt : joinTail (v :: vs) = ' ' :: joinSpace (v :: vs) := rfl
      have hsp : isLowerAlnum ' ' = false := by decide
      rw [hjt, List.takeWhile_cons_of_neg (by simp [hsp]),
        List.dropWhile_cons_of_neg (by simp [hsp]), List.append_nil,
        wordsOf_cons_neg hsp,
        ih (fun u hu => h1 u (List.mem_cons_of_mem _ hu))
          (fun u hu => h2 u (List.mem_cons_of_mem _ hu))]

/-! ## C6: the second normalization pass is the identity -/

theorem map_id_of_mem {f : Char → Char} :
    ∀ l : List Char, (∀ c ∈ l, f c = c) → l.map f = l := by
  intro l
  induction l with
  | nil => intro _; rfl
  | cons c rest ih =>
    intro h
    rw [List.map_cons, h c (by simp), ih (fun d hd => h d (by simp [hd]))]

theorem unidecode_fix :
    ∀ l : List Char, (∀ c ∈ l, c.toNat < 128) → unidecodeStr l = l := by
  intro l
  induction l with
  | nil => intro _; rfl
  | cons c rest ih =>
    intro h
    show translit c ++ unidecodeStr rest = c :: rest
    rw [translit_ascii (h c (by simp)), ih (fun d hd => h d (by simp [hd]))]
    rfl

theorem stripB_isPrefix (l : List Char) : stripB l <+: l := by
  have h : (stripB l).reverse <:+ l.reverse := by
    unfold stripB
    rw [List.reverse_reverse]
    exact List.dropWhile_suffix pyIsSpace
  exact List.reverse_suffix.1 h

theorem pyStrip_isInfix (l : List Char) : pyStrip l <:+: l :=
  (stripB_isPrefix (stripF l)).isInfix.trans
    (List.dropWhile_suffix pyIsSpace).isInfix

theorem normalize_chars (x : List Char) :
    ∀ c ∈ normalize_key x, isLowerAlnum c = true ∨ c = ' ' := by
  intro c hc
  have hc2 : c ∈ collapse (applyStopWords (applyRemovals
      ((unidecodeStr x).map toLowerPy))) :=
    (pyStrip_isInfix _).subset hc
  exact collapse_chars _ _ (Nat.le_refl _) c hc2

theorem pySub_id_of_none (m : Char → List Char → Option (List Char))
    (rep : List Char) (l : List Char)
    (h : ∀ c rest, c :: rest <:+ l → m c rest = none) :
    pySub m rep l = l :=
  subScan_id_of_none m rep (l.length + 1) l h

theorem goodOrSpace_ne (c : Char) (h : isLowerAlnum c = true ∨ c = ' ')
    (d : Char) (hd : isLowerAlnum d = false) (hd2 : d ≠ ' ') : c ≠ d := by
  intro he
  subst he
  rcases h with h | h
  · rw [h] at hd
    cases hd
  · exact hd2 h

theorem applyRemovals_id (l : List Char)
    (h : ∀ c ∈ l, isLowerAlnum c = true ∨ c = ' ') :
    applyRemovals l = l := by
  have h40 : ∀ c ∈ l, c ≠ '(' := fun c hc =>
    goodOrSpace_ne c (h c hc) '(' (by decide) (by decide)
  have h45 : ∀ c ∈ l, c ≠ '-' := fun c hc =>
    goodOrSpace_ne c (h c hc) '-' (by decide) (by decide)
  have h91 : ∀ c ∈ l, c ≠ '[' := fun c hc =>
    goodOrSpace_ne c (h c hc) '[' (by decide) (by decide)
  have hp : pySub matchFeatParen [' '] l = l := by
    apply pySub_id_of_none
    intro c rest hs
    unfold matchFeatParen
    rw [if_neg (h40 c (hs.subset (by simp)))]
  have hr : pySub matchRemaster [' '] l = l := by
    apply pySub_id_of_none
    intro c rest hs
    unfold matchRemaster
    rw [if_neg (h45 c (hs.subset (by simp)))]
  have hd : pySub matchDeluxe [' '] l = l := by
    apply pySub_id_of_none
    intro c rest hs
    unfold matchDeluxe
    rw [if_neg (h45 c (hs.subset (by simp)))]
  have hl : pySub matchLive [' '] l = l := by
    apply pySub_id_of_none
    intro c rest hs
    unfold matchLive
    rw [if_neg (h45 c (hs.subset (by simp)))]
  have hb : pySub matchBracket [' '] l = l := by
    apply pySub_id_of_none
    intro c rest hs
    unfold matchBracket
    rw [if_neg (h91 c (hs.subset (by simp)))]
  show pySub matchBracket [' ']
    (pySub matchLive [' '] (pySub matchDeluxe [' ']
      (pySub matchRemaster [' '] (pySub matchFeatParen [' '] l)))) = l
  rw [hp, hr, hd, hl, hb]

/-! ## C6: stop-word substrings never survive their replacement pass -/

theorem prefix_replaceAll (w : List Char) :
    ∀ (n : Nat) (s p : List Char), s.length ≤ n → ' ' ∉ p →
      p <+: replaceAll w [' '] s → p <+: s := by
  intro n
  induction n with
  | zero =>
    intro s p hs _ hpre
    have hnil : s = [] := List.eq_nil_of_length_eq_zero (Nat.le_zero.1 hs)
    subst hnil
    rw [replaceAll_nil] at hpre
    exact hpre
  | succ m ih =>
    intro s p hs hsp hpre
    cases s with
    | nil =>
      rw [replaceAll_nil] at hpre
      exact hpre
    | cons c rest =>
      rw [replaceAll_cons] at hpre
      simp only [List.length_cons] at hs
      by_cases hcond : w ≠ [] ∧ w.isPrefixOf (c :: rest)
      · rw [if_pos hcond] at hpre
        cases p with
        | nil => exact List.nil_prefix
        | cons a q =>
          have ha : a = ' ' := (List.cons_prefix_cons.1 hpre).1
          exact absurd (by simp [ha]) hsp
      · rw [if_neg hcond] at hpre
        cases p with
        | nil => exact List.nil_prefix
        | cons a q =>
          obtain ⟨rfl, hq⟩ := List.cons_prefix_cons.1 hpre
          have hq2 : q <+: rest := ih rest q (by omega)
            (fun hm => hsp (by simp [hm])) hq
          exact List.cons_prefix_cons.2 ⟨rfl, hq2⟩

theorem not_infix_replaceAll_self (w : List Char) (hw : w ≠ [])
    (hsp : ' ' ∉ w) :
    ∀ (n : Nat) (s : List Char), s.length ≤ n →
      ¬ w <:+: replaceAll w [' '] s := by
  intro n
  induction n with
  | zero =>
    intro s hs hinf
    have hnil : s = [] := List.eq_nil_of_length_eq_zero (Nat.le_zero.1 hs)
    subst hnil
    rw [replaceAll_nil] at hinf
    exact hw (List.infix_nil.1 hinf)
  | succ m ih =>
    intro s hs hinf
    cases s with
    | nil =>
      rw [replaceAll_nil] at hinf
      exact hw (List.infix_nil.1 hinf)
    | cons c rest =>
      rw [replaceAll_cons] at hinf
      simp only [List.length_cons] at hs
      by_cases hcond : w ≠ [] ∧ w.isPrefixOf (c :: rest)
      · rw [if_pos hcond] at hinf
        rcases List.infix_cons_iff.1 hinf with hpre | htail
        · cases w with
          | nil => exact hw rfl
          | cons a q =>
            have ha : a = ' ' := (List.cons_prefix_cons.1 hpre).1
            exact hsp (by simp [ha])
        · refine ih _ ?_ htail
          have := List.length_drop (w.length - 1) rest
          omega
      · rw [if_neg hcond] at hinf
        rcases List.infix_cons_iff.1 hinf with hpre | htail
        · cases w with
          | nil => exact hw rfl
          | cons a q =>
            obtain ⟨rfl, hq⟩ := List.cons_prefix_cons.1 hpre
            have hq2 : q <+: rest := prefix_replaceAll (a :: q) rest.length
              rest q (Nat.le_refl _) (fun hm => hsp (by simp [hm])) hq
            exact hcond ⟨hw, List.isPrefixOf_iff_prefix.2
              (List.cons_prefix_cons.2 ⟨rfl, hq2⟩)⟩
        · exact ih rest (by omega) htail

theorem not_infix_replaceAll_other (v : List Char) (hv : v ≠ [])
    (hsp : ' ' ∉ v) (w : List Char) :
    ∀ (n : Nat) (s : List Char), s.length ≤ n → ¬ v <:+: s →
      ¬ v <:+: replaceAll w [' '] s := by
  intro n
  induction n with
  | zero =>
    intro s hs _ hinf
    have hnil : s = [] := List.eq_nil_of_length_eq_zero (Nat.le_zero.1 hs)
    subst hnil
    rw [replaceAll_nil] at hinf
    exact hv (List.infix_nil.1 hinf)
  | succ m ih =>
    intro s hs hni hinf
    cases s with
    | nil =>
      rw [replaceAll_nil] at hinf
      exact hv (List.infix_nil.1 hinf)
    | cons c rest =>
      rw [replaceAll_cons] at hinf
      simp only [List.length_cons] at hs
      by_cases hcond : w ≠ [] ∧ w.isPrefixOf (c :: rest)
      · rw [if_pos hcond] at hinf
        rcases List.infix_cons_iff.1 hinf with hpre | htail
        · cases v with
          | nil => exact hv rfl
          | cons a q =>
            have ha : a = ' ' := (List.cons_prefix_cons.1 hpre).1
            exact hsp (by simp [ha])
        · refine ih _ ?_ ?_ htail
          · have := List.length_drop (w.length - 1) rest
            omega
          · intro hinf2
            exact hni (hinf2.trans
              (((List.drop_suffix _ rest).trans
                (List.suffix_cons c rest)).isInfix))
      · rw [if_neg hcond] at hinf
        rcases List.infix_cons_iff.1 hinf with hpre | htail
        · cases v with
          | nil => exact hv rfl
          | cons a q =>
            obtain ⟨rfl, hq⟩ := List.cons_prefix_cons.1 hpre
            have hq2 : q <+: rest := prefix_replaceAll w rest.length
              rest q (Nat.le_refl _) (fun hm => hsp (by simp [hm])) hq
            exact hni (List.cons_prefix_cons.2 ⟨rfl, hq2⟩).isInfix
        · refine ih rest (by omega) ?_ htail
          intro hinf2
          exact hni (hinf2.trans (List.suffix_cons c rest).isInfix)

theorem not_infix_foldl_replace (v : List Char) (hv : v ≠ [])
    (hsp : ' ' ∉ v) :
    ∀ (ws : List (List Char)) (s : List Char), ¬ v <:+: s →
      ¬ v <:+: ws.foldl (fun acc w => replaceAll w [' '] acc) s := by
  intro ws
  induction ws with
  | nil => intro s h; exact h
  | cons w ws ih =>
    intro s h
    simp only [List.foldl_cons]
    exact ih _ (not_infix_replaceAll_other v hv hsp w s.length s
      (Nat.le_refl _) h)

theorem stopWords_foldl_absent :
    ∀ (ws : List (List Char)) (s : List Char),
      (∀ w ∈ ws, w ≠ [] ∧ ' ' ∉ w) →
      ∀ v ∈ ws, ¬ v <:+: ws.foldl (fun acc w => replaceAll w [' '] acc) s := by
  intro ws
  induction ws with
  | nil => intro s _ v hv; cases hv
  | cons w ws ih =>
    intro s hprops v hv
    simp only [List.foldl_cons]
    rcases List.mem_cons.1 hv with rfl | hv
    · have hp := hprops v (by simp)
      exact not_infix_foldl_replace v hp.1 hp.2 ws _
        (not_infix_replaceAll_self v hp.1 hp.2 s.length s (Nat.le_refl _))
    · exact ih _ (fun u hu => hprops u (List.mem_cons_of_mem _ hu)) v hv

theorem prefix_collapse :
    ∀ (n : Nat) (s p : List Char), s.length ≤ n →
      (∀ c ∈ p, isLowerAlnum c = true) → p <+: collapse s → p <+: s := by
  intro n
  induction n with
  | zero =>
    intro s p hs _ hpre
    have hnil : s = [] := List.eq_nil_of_length_eq_zero (Nat.le_zero.1 hs)
    subst hnil
    rw [collapse_nil] at hpre
    exact hpre
  | succ m ih =>
    intro s p hs hgood hpre
    cases s with
    | nil =>
      rw [collapse_nil] at hpre
      exact hpre
    | cons c rest =>
      rw [collapse_cons] at hpre
      simp only [List.length_cons] at hs
      by_cases hc : isLowerAlnum c
      · rw [if_pos hc] at hpre
        cases p with
        | nil => exact List.nil_prefix
        | cons a q =>
          obtain ⟨rfl, hq⟩ := List.cons_prefix_cons.1 hpre
          have hq2 : q <+: rest := ih rest q (by omega)
            (fun d hd => hgood d (by simp [hd])) hq
          exact List.cons_prefix_cons.2 ⟨rfl, hq2⟩
      · rw [if_neg hc] at hpre
        cases p with
        | nil => exact List.nil_prefix
        | cons a q =>
          have ha : a = ' ' := (List.cons_prefix_cons.1 hpre).1
          have := hgood a (by simp)
          rw [ha] at this
          exact absurd this (by decide)

theorem infix_collapse (w : List Char) (hw : w ≠ [])
    (hgood : ∀ c ∈ w, isLowerAlnum c = true) :
    ∀ (n : Nat) (s : List Char), s.length ≤ n →
      w <:+: collapse s → w <:+: s := by
  intro n
  induction n with
  | zero =>
    intro s hs hinf
    have hnil : s = [] := List.eq_nil_of_length_eq_zero (Nat.le_zero.1 hs)
    subst hnil
    rw [collapse_nil] at hinf
    exact absurd (List.infix_nil.1 hinf) hw
  | succ m ih =>
    intro s hs hinf
    cases s with
    | nil =>
      rw [collapse_nil] at hinf
      exact absurd (List.infix_nil.1 hinf) hw
    | cons c rest =>
      rw [collapse_cons] at hinf
      simp only [List.length_cons] at hs
      by_cases hc : isLowerAlnum c
      · rw [if_pos hc] at hinf
        rcases List.infix_cons_iff.1 hinf with hpre | htail
        · have hpre2 : w <+: collapse (c :: rest) := by
            rw [collapse_cons, if_pos hc]
            exact hpre
          exact (prefix_collapse (c :: rest).length (c :: rest) w
            (Nat.le_refl _) hgood hpre2).isInfix
        · exact ((ih rest (by omega) htail).trans
            (List.suffix_cons c rest).isInfix)
      · rw [if_neg hc] at hinf
        rcases List.infix_cons_iff.1 hinf with hpre | htail
        · cases w with
          | nil => exact absurd rfl hw
          | cons a q =>
            have ha : a = ' ' := (List.cons_prefix_cons.1 hpre).1
            have := hgood a (by simp)
            rw [ha] at this
            exact absurd this (by decide)
        · have hlen : (rest.dropWhile (fun d => !isLowerAlnum d)).length ≤ m := by
            have := dropWhile_length_le (fun d => !isLowerAlnum d) rest
            omega
          have h1 := ih _ hlen htail
          exact h1.trans (((List.dropWhile_suffix _).trans
            (List.suffix_cons c rest)).isInfix)

theorem replaceAll_id_of_absent (w : List Char) :
    ∀ (n : Nat) (l : List Char), l.length ≤ n → ¬ w <:+: l →
      replaceAll w [' '] l = l := by
  intro n
  induction n with
  | zero =>
    intro l hl _
    have hnil : l = [] := List.eq_nil_of_length_eq_zero (Nat.le_zero.1 hl)
    subst hnil
    exact replaceAll_nil w [' ']
  | succ m ih =>
    intro l hl hni
    cases l with
    | nil => exact replaceAll_nil w [' ']
    | cons c rest =>
      rw [replaceAll_cons]
      simp only [List.length_cons] at hl
      rw [if_neg ?_]
      · rw [ih rest (by omega) (fun h => hni (h.trans
          (List.suffix_cons c rest).isInfix))]
      · rintro ⟨_, hpre⟩
        exact hni (List.isPrefixOf_iff_prefix.1 hpre).isInfix

theorem foldl_replaceAll_id :
    ∀ (ws : List (List Char)) (l : List Char),
      (∀ w ∈ ws, ¬ w <:+: l) →
      ws.foldl (fun acc w => replaceAll w [' '] acc) l = l := by
  intro ws
  induction ws with
  | nil => intro l _; rfl
  | cons w ws ih =>
    intro l h
    simp only [List.foldl_cons]
    rw [replaceAll_id_of_absent w l.length l (Nat.le_refl _) (h w (by simp))]
    exact ih l (fun u hu => h u (List.mem_cons_of_mem _ hu))

theorem not_infix_of_missing_char {w l : List Char} {c0 : Char}
    (h1 : c0 ∈ w) (h2 : c0 ∉ l) : ¬ w <:+: l :=
  fun hinf => h2 (hinf.subset h1)

theorem stopWords_not_infix_normalize (x : List Char) :
    ∀ w ∈ stopWords, ¬ w <:+: normalize_key x := by
  intro w hw
  have hch := normalize_chars x
  have hdot : ('.' : Char) ∉ normalize_key x := by
    intro hc
    rcases hch '.' hc with h | h
    · exact absurd h (by decide)
    · exact absurd h (by decide)
  have halnum : ∀ v ∈ stopWords, v ≠ "feat.".data →
      v ≠ [] ∧ ∀ c ∈ v, isLowerAlnum c = true := by
    decide
  by_cases hfeat : w = "feat.".data
  · subst hfeat
    exact not_infix_of_missing_char (by decide) hdot
  · intro hinf
    obtain ⟨hne, hgood⟩ := halnum w hw hfeat
    have h1 : w <:+: collapse (applyStopWords (applyRemovals
        ((unidecodeStr x).map toLowerPy))) :=
      hinf.trans (pyStrip_isInfix _)
    have h2 := infix_collapse w hne hgood _ _ (Nat.le_refl _) h1
    have h3 := stopWords_foldl_absent stopWords
      (applyRemovals ((unidecodeStr x).map toLowerPy)) (by decide) w hw
    exact h3 h2

theorem applyStopWords_id_on_normalize (x : List Char) :
    applyStopWords (normalize_key x) = normalize_key x :=
  foldl_replaceAll_id stopWords (normalize_key x)
    (stopWords_not_infix_normalize x)

theorem normalize_key_idem (x : List Char) :
    normalize_key (normalize_key x) = normalize_key x := by
  have hch := normalize_chars x
  have h1 : unidecodeStr (normalize_key x) = normalize_key x :=
    unidecode_fix _ (fun c hc => goodOrSpace_ascii (hch c hc))
  have h2 : (normalize_key x).map toLowerPy = normalize_key x :=
    map_id_of_mem _ (fun c hc => toLowerPy_fix (hch c hc))
  have h3 : applyRemovals (normalize_key x) = normalize_key x :=
    applyRemovals_id _ hch
  have h4 := applyStopWords_id_on_normalize x
  have h5 : pyStrip (collapse (normalize_key x)) = normalize_key x := by
    have hNF : normalize_key x = joinSpace (wordsOf (applyStopWords
        (applyRemovals ((unidecodeStr x).map toLowerPy)))) :=
      pyStrip_collapse _
    rw [hNF, pyStrip_collapse, wordsOf_joinSpace _ (wordsOf_ne_nil' _)
      (wordsOf_good' _)]
  show pyStrip (collapse (applyStopWords (applyRemovals
    ((unidecodeStr (normalize_key x)).map toLowerPy)))) = normalize_key x
  rw [h1, h2, h3, h4, h5]

/-- C6: `normalize_key` is idempotent and case-insensitive:
normalizing twice gives the same result as normalizing once, and
normalizing the uppercased string gives the same result as normalizing the
original. -/
theorem c6_normalize_idem_and_case_insensitive (x : List Char) :
    normalize_key (normalize_key x) = normalize_key x ∧
      normalize_key (x.map pyUpper) = normalize_key x :=
  ⟨normalize_key_idem x, normalize_key_upper x⟩

end PlexImport
